import Mathlib

/-!
Verification of the LeetCode-Uploader scaffold script (`create.py`).

The script is a straight-line sequence of `os.makedirs(..., exist_ok=True)`
calls and `open(..., 'w')` placeholder-file writes, driven by two hardcoded
lists (topic names, utility filenames).  We embed it shallowly:

* a filesystem is a total function from paths (lists of name components,
  rooted at the filesystem root) to entries (missing, directory, or a file
  with a string content);
* `Op.makedirs p` models `os.makedirs(p, exist_ok=True)`: it succeeds iff no
  prefix of `p` is currently a file, and makes every prefix of `p` a
  directory;
* `Op.write d f c` models `open(os.path.join(d, f), 'w')` followed by writing
  `c`: it succeeds iff `d` is currently a directory and `d ++ [f]` is not a
  directory, and sets `d ++ [f]` to a file with content `c`;
* the script is the op list `scriptOps root topics utilities`, translated
  line by line from `create.py`; `runScript` executes it left to right,
  stopping at the first failing op (carrying the state reached so far), and
  produces the `print` message only when every op succeeded.
-/

/-- A filesystem entry: absent, a directory, or a regular file with content. -/
inductive FsEntry : Type where
  | missing : FsEntry
  | dir : FsEntry
  | file (content : String) : FsEntry
deriving DecidableEq, Repr

/-- A path is a list of name components from the filesystem root. -/
abbrev FPath := List String

/-- A filesystem: a total map from paths to entries. -/
def FS : Type := FPath → FsEntry

/-- `e.isFile` is true iff `e` is a regular file. -/
def FsEntry.isFile : FsEntry → Bool
  | .file _ => true
  | _ => false

/-- `e.isDir` is true iff `e` is a directory. -/
def FsEntry.isDir : FsEntry → Bool
  | .dir => true
  | _ => false

/-- Point update of a filesystem. -/
def upd (s : FS) (p : FPath) (e : FsEntry) : FS :=
  fun q => if q = p then e else s q

/-- All nonempty prefixes of a path, shortest first (the chain of directories
`os.makedirs` must traverse/create). -/
def pathPrefixes : FPath → List FPath
  | [] => []
  | a :: rest => [a] :: (pathPrefixes rest).map (a :: ·)

/-- Make every prefix of `p` a directory (the effect of a successful
`os.makedirs(p, exist_ok=True)`). -/
def mkDirs (s : FS) (p : FPath) : FS :=
  (pathPrefixes p).foldl (fun s q => upd s q .dir) s

/-- One filesystem operation of the script: a recursive directory creation,
or a file write `open(os.path.join(d, f), 'w')` with content `c`. -/
inductive Op : Type where
  | makedirs (p : FPath) : Op
  | write (d : FPath) (f : String) (c : String) : Op
deriving DecidableEq, Repr

/-- Execute one operation; `none` models a raised `OSError`.

`makedirs p` (with `exist_ok=True`) succeeds iff no prefix of `p` is a file;
`write d f c` succeeds iff `d` is a directory and `d ++ [f]` is not a
directory (opening a directory for writing raises `IsADirectoryError`,
a missing or non-directory parent raises
`FileNotFoundError`/`NotADirectoryError`). -/
def runOp (s : FS) : Op → Option FS
  | .makedirs p =>
      if (pathPrefixes p).all (fun q => !(s q).isFile) then some (mkDirs s p) else none
  | .write d f c =>
      if (s d).isDir && !(s (d ++ [f])).isDir then some (upd s (d ++ [f]) (.file c)) else none

/-- Execute a list of operations left to right, stopping at the first failure.
The `error` case carries the state reached just before the failing op (no
rollback is performed). -/
def runOps : FS → List Op → Except FS FS
  | s, [] => .ok s
  | s, op :: rest =>
    match runOp s op with
    | some s1 => runOps s1 rest
    | none => .error s

/-- The hardcoded Desktop path of `create.py`, as path components. -/
def desktop_path : FPath := ["Users", "msnabiel", "Desktop"]

/-- `root_dir = os.path.join(desktop_path, "LeetCode")`. -/
def root_dir : FPath := desktop_path ++ ["LeetCode"]

/-- The hardcoded topic list of `create.py`. -/
def topics : List String :=
  ["Arrays", "Strings", "Dynamic_Programming", "Backtracking", "Bit_Manipulation",
   "Greedy", "Graphs", "Trees", "Math", "Hash_Table", "Sorting", "Searching",
   "Two_Pointers", "Sliding_Window", "Union_Find", "Heap", "Stack", "Queue",
   "Recursion", "Binary_Search", "Trie", "Divide_and_Conquer", "Monotonic_Stack"]

/-- The hardcoded utility filename list of `create.py`. -/
def utilities : List String := ["readme_generator.py", "leetcode_template.py"]

/-- The fixed difficulty folder list of `create.py`. -/
def difficulty_folders : List String := ["Easy", "Medium", "Hard"]

/-- Content written to `Topics/{t}/{t}_example.txt` (two `file.write` calls). -/
def topicContent (t : String) : String :=
  "# Dummy file for " ++ t ++ " topic\n" ++
  "# Add your code solutions for " ++ t ++ " here.\n"

/-- Content written to `{d}/{d}_example.txt` (two `file.write` calls). -/
def difficultyContent (d : String) : String :=
  "# Dummy file for " ++ d ++ " level\n" ++
  "# Add your " ++ d ++ " level code solutions here.\n"

/-- Content written to `Utilities/{u}` (two `file.write` calls). -/
def utilityContent (u : String) : String :=
  "# This is a placeholder for the script\n" ++
  "# " ++ u ++ " - Add your utility code here.\n"

/-- Content written to `README.md` (seven `readme_file.write` calls). -/
def readmeContent : String :=
  "# LeetCode Project\n" ++
  "This is a project for LeetCode problems categorized by difficulty and topic.\n" ++
  "\n## Folders and Files\n" ++
  "The project contains the following folders:\n" ++
  "- `Easy`, `Medium`, `Hard` - Difficulty folders\n" ++
  "- `Topics` - Folder containing various topics with solutions.\n" ++
  "- `Utilities` - Utility scripts for various purposes.\n"

/-- The two ops of one iteration of the `for topic in topics` loop. -/
def topicOps (root : FPath) (t : String) : List Op :=
  [.makedirs (root ++ ["Topics", t]),
   .write (root ++ ["Topics", t]) (t ++ "_example.txt") (topicContent t)]

/-- The op of one iteration of the `for difficulty in difficulty_folders` loop. -/
def difficultyOps (root : FPath) (d : String) : List Op :=
  [.write (root ++ [d]) (d ++ "_example.txt") (difficultyContent d)]

/-- The op of one iteration of the `for utility in utilities` loop. -/
def utilityOps (root : FPath) (u : String) : List Op :=
  [.write (root ++ ["Utilities"]) u (utilityContent u)]

/-- The full operation sequence of `create.py`, translated line by line,
parameterized by the root path and the two name lists (which the script
hardcodes as `root_dir`, `topics`, `utilities`). -/
def scriptOps (root : FPath) (ts us : List String) : List Op :=
  [.makedirs root] ++
  [.makedirs (root ++ ["Easy"])] ++
  [.makedirs (root ++ ["Medium"])] ++
  [.makedirs (root ++ ["Hard"])] ++
  [.makedirs (root ++ ["Topics"])] ++
  ts.flatMap (topicOps root) ++
  difficulty_folders.flatMap (difficultyOps root) ++
  [.makedirs (root ++ ["Utilities"])] ++
  us.flatMap (utilityOps root) ++
  [.write root "README.md" readmeContent]

/-- `os.path.abspath` of an absolute path given as components. -/
def absPath (p : FPath) : String :=
  p.foldl (fun acc c => acc ++ "/" ++ c) ""

/-- The final `print` message of the script. -/
def completionMessage (root : FPath) : String :=
  "Project structure with dummy files created at: " ++ absPath root

/-- Run the whole script: execute all ops; on success additionally produce the
printed completion message.  On failure the error state is the filesystem
reached before the failing op, and nothing is printed. -/
def runScript (s : FS) (root : FPath) (ts us : List String) : Except FS (FS × String) :=
  match runOps s (scriptOps root ts us) with
  | .ok s1 => .ok (s1, completionMessage root)
  | .error s1 => .error s1

/-- Whether the run succeeds. -/
def runOk (s : FS) (root : FPath) (ts us : List String) : Bool :=
  match runScript s root ts us with
  | .ok _ => true
  | .error _ => false

/-- The filesystem produced by the run: the final state on success, the state
at the failure point otherwise. -/
def runFS (s : FS) (root : FPath) (ts us : List String) : FS :=
  match runScript s root ts us with
  | .ok pr => pr.1
  | .error s1 => s1

/-- The empty filesystem. -/
def emptyFS : FS := fun _ => .missing

/-- Number of ops executed successfully before the first failure (equals the
list length when every op succeeds). -/
def execCount : FS → List Op → Nat
  | _, [] => 0
  | s, op :: rest =>
    match runOp s op with
    | some s1 => execCount s1 rest + 1
    | none => 0

/-- All paths an op may modify: every prefix for `makedirs`, the target file
for `write`. -/
def opTargets : Op → List FPath
  | .makedirs p => pathPrefixes p
  | .write d f _ => [d ++ [f]]

/-- All paths a list of ops may modify. -/
def targetsOf (ops : List Op) : List FPath :=
  ops.flatMap opTargets

/-- The target paths of the write ops in a list. -/
def writeTargets (ops : List Op) : List FPath :=
  ops.filterMap (fun op => match op with
    | .write d f _ => some (d ++ [f])
    | _ => none)

/-- `containsSub hay needle` : `needle` occurs as a contiguous sublist of `hay`. -/
def containsSub : List Char → List Char → Bool
  | [], needle => needle.isEmpty
  | a :: rest, needle => needle.isPrefixOf (a :: rest) || containsSub rest needle

/-- `strContains hay needle` : `needle` occurs as a substring of `hay`. -/
def strContains (hay needle : String) : Bool :=
  containsSub hay.data needle.data

/-- `strStartsWith s pre` : `s` begins with the prefix string `pre`. -/
def strStartsWith (s pre : String) : Bool :=
  pre.data.isPrefixOf s.data

/-- De-duplicate a list keeping the first occurrence of each element. -/
def dedupFirst : List String → List String
  | [] => []
  | a :: rest => a :: (dedupFirst rest).filter (fun x => x ≠ a)

/-- `writesOnly p c op`: if `op` is a write targeting path `p`, its content is `c`. -/
def writesOnly (p : FPath) (c : String) : Op → Prop
  | .write d f c1 => d ++ [f] = p → c1 = c
  | .makedirs _ => True

/-- The content an op writes to path `p`, if it is a write targeting `p`. -/
def writeAt (p : FPath) : Op → Option String
  | .write d f c => if d ++ [f] = p then some c else none
  | .makedirs _ => none

/-- The contents of all writes in `ops` targeting path `p`, in execution order. -/
def writeContentsAt (ops : List Op) (p : FPath) : List String :=
  ops.filterMap (writeAt p)

/-! ## Spec section 4 step list (for the ordering claim) -/

/-- Modelled from the spec, section 4, step 1: ensure `root` exists. -/
def specStep1 (root : FPath) : List Op := [.makedirs root]

/-- Modelled from the spec, section 4, step 2: ensure `root/Easy`,
`root/Medium`, `root/Hard` exist. -/
def specStep2 (root : FPath) : List Op :=
  [.makedirs (root ++ ["Easy"]), .makedirs (root ++ ["Medium"]), .makedirs (root ++ ["Hard"])]

/-- Modelled from the spec, section 4, step 3: ensure `root/Topics` exists. -/
def specStep3 (root : FPath) : List Op := [.makedirs (root ++ ["Topics"])]

/-- Modelled from the spec, section 4, step 4: for each topic in list order,
ensure `root/Topics/t`, then write `root/Topics/t/{t}_example.txt`. -/
def specStep4 (root : FPath) (ts : List String) : List Op :=
  ts.flatMap (fun t =>
    [.makedirs (root ++ ["Topics", t]),
     .write (root ++ ["Topics", t]) (t ++ "_example.txt") (topicContent t)])

/-- Modelled from the spec, section 4, step 5: for each difficulty in the
fixed order Easy, Medium, Hard, write `root/{d}/{d}_example.txt`. -/
def specStep5 (root : FPath) : List Op :=
  ["Easy", "Medium", "Hard"].flatMap (fun d =>
    [.write (root ++ [d]) (d ++ "_example.txt") (difficultyContent d)])

/-- Modelled from the spec, section 4, step 6: ensure `root/Utilities` exists. -/
def specStep6 (root : FPath) : List Op := [.makedirs (root ++ ["Utilities"])]

/-- Modelled from the spec, section 4, step 7: for each utility filename in
list order, write `root/Utilities/u`. -/
def specStep7 (root : FPath) (us : List String) : List Op :=
  us.flatMap (fun u => [.write (root ++ ["Utilities"]) u (utilityContent u)])

/-- Modelled from the spec, section 4, step 8: write `root/README.md`. -/
def specStep8 (root : FPath) : List Op := [.write root "README.md" readmeContent]

set_option maxRecDepth 100000

/-! ## Basic lemmas about the filesystem model -/

theorem upd_eval (s : FS) (p q : FPath) (e : FsEntry) :
    upd s p e q = if q = p then e else s q := rfl

theorem upd_self (s : FS) (p : FPath) (e : FsEntry) : upd s p e p = e := by
  simp [upd]

theorem upd_ne (s : FS) (p : FPath) (e : FsEntry) {q : FPath} (h : q ≠ p) :
    upd s p e q = s q := by
  simp [upd, h]

theorem isDir_iff {e : FsEntry} : e.isDir = true ↔ e = .dir := by
  cases e <;> simp [FsEntry.isDir]

theorem isDir_false_iff {e : FsEntry} : e.isDir = false ↔ e ≠ .dir := by
  cases e <;> simp [FsEntry.isDir]

theorem isFile_iff {e : FsEntry} : e.isFile = true ↔ ∃ c, e = .file c := by
  cases e <;> simp [FsEntry.isFile]

theorem isFile_false_iff {e : FsEntry} : e.isFile = false ↔ ∀ c, e ≠ .file c := by
  cases e <;> simp [FsEntry.isFile]

theorem length_le_of_mem_pathPrefixes {q p : FPath} (h : q ∈ pathPrefixes p) :
    q.length ≤ p.length := by
  induction p generalizing q with
  | nil => simp [pathPrefixes] at h
  | cons a rest ih =>
    simp only [pathPrefixes, List.mem_cons, List.mem_map] at h
    rcases h with rfl | ⟨q1, hq1, rfl⟩
    · simp
    · simpa using ih hq1

theorem ne_nil_of_mem_pathPrefixes {q p : FPath} (h : q ∈ pathPrefixes p) : q ≠ [] := by
  induction p generalizing q with
  | nil => simp [pathPrefixes] at h
  | cons a rest ih =>
    simp only [pathPrefixes, List.mem_cons, List.mem_map] at h
    rcases h with rfl | ⟨q1, hq1, rfl⟩ <;> simp

theorem pathPrefixes_append (xs ys : FPath) :
    pathPrefixes (xs ++ ys) = pathPrefixes xs ++ (pathPrefixes ys).map (xs ++ ·) := by
  induction xs with
  | nil => simp [pathPrefixes]
  | cons a rest ih =>
    simp only [List.cons_append, pathPrefixes, List.append_eq, ih, List.map_append,
      List.map_map]
    rfl

theorem self_mem_pathPrefixes {p : FPath} (h : p ≠ []) : p ∈ pathPrefixes p := by
  induction p with
  | nil => exact absurd rfl h
  | cons a rest ih =>
    by_cases hr : rest = []
    · subst hr; simp [pathPrefixes]
    · simp only [pathPrefixes, List.mem_cons, List.mem_map]
      exact Or.inr ⟨rest, ih hr, rfl⟩

theorem foldl_upd_dir (l : List FPath) (s : FS) (q : FPath) :
    (l.foldl (fun s p => upd s p .dir) s) q = if q ∈ l then .dir else s q := by
  induction l generalizing s with
  | nil => simp
  | cons a l ih =>
    simp only [List.foldl_cons, ih, List.mem_cons]
    by_cases h1 : q ∈ l
    · simp [h1]
    · by_cases h2 : q = a <;> simp [h1, h2, upd]

theorem mkDirs_eval (s : FS) (p q : FPath) :
    mkDirs s p q = if q ∈ pathPrefixes p then .dir else s q :=
  foldl_upd_dir _ _ _

/-! ## Lemmas about executing operation lists -/

theorem runOps_append (s : FS) (l1 l2 : List Op) :
    runOps s (l1 ++ l2) =
      match runOps s l1 with
      | .ok s1 => runOps s1 l2
      | .error s1 => .error s1 := by
  induction l1 generalizing s with
  | nil => simp [runOps]
  | cons op l1 ih =>
    simp only [List.cons_append, runOps]
    cases runOp s op <;> simp [ih]

theorem runOps_append_ok {s s1 : FS} {l1 : List Op} (l2 : List Op)
    (h : runOps s l1 = .ok s1) : runOps s (l1 ++ l2) = runOps s1 l2 := by
  rw [runOps_append, h]

theorem runOps_append_error {s s1 : FS} {l1 : List Op} (l2 : List Op)
    (h : runOps s l1 = .error s1) : runOps s (l1 ++ l2) = .error s1 := by
  rw [runOps_append, h]

theorem runOps_cons_ok {s s1 s2 : FS} {op : Op} {rest : List Op}
    (h1 : runOp s op = some s1) (h2 : runOps s1 rest = .ok s2) :
    runOps s (op :: rest) = .ok s2 := by
  simp [runOps, h1, h2]

theorem runOps_ok_of_cons {s s2 : FS} {op : Op} {rest : List Op}
    (h : runOps s (op :: rest) = .ok s2) :
    ∃ s1, runOp s op = some s1 ∧ runOps s1 rest = .ok s2 := by
  simp only [runOps] at h
  cases hop : runOp s op with
  | none => rw [hop] at h; exact absurd h (by simp)
  | some s1 => rw [hop] at h; exact ⟨s1, rfl, h⟩

theorem runOp_dir_mono {s s1 : FS} {op : Op} (h : runOp s op = some s1) {p : FPath}
    (hd : s p = .dir) : s1 p = .dir := by
  cases op with
  | makedirs q =>
    simp only [runOp] at h
    split at h
    · cases h
      rw [mkDirs_eval]
      split <;> [rfl; exact hd]
    · cases h
  | write d f c =>
    simp only [runOp] at h
    split at h
    · next hc =>
      cases h
      have hne : p ≠ d ++ [f] := by
        intro hpe
        rw [hpe] at hd
        simp [hd, FsEntry.isDir] at hc
      rw [upd_ne _ _ _ hne]
      exact hd
    · cases h

theorem runOps_dir_mono {ops : List Op} {s s1 : FS} (h : runOps s ops = .ok s1) {p : FPath}
    (hd : s p = .dir) : s1 p = .dir := by
  induction ops generalizing s with
  | nil => cases h; exact hd
  | cons op rest ih =>
    obtain ⟨s2, hop, hrest⟩ := runOps_ok_of_cons h
    exact ih hrest (runOp_dir_mono hop hd)

theorem runOp_file_preserve {s s1 : FS} {op : Op} {p : FPath} {c : String}
    (hc : writesOnly p c op) (h : runOp s op = some s1) (hf : s p = .file c) :
    s1 p = .file c := by
  cases op with
  | makedirs q =>
    simp only [runOp] at h
    split at h
    · next hchk =>
      cases h
      rw [mkDirs_eval]
      by_cases hp : p ∈ pathPrefixes q
      · exfalso
        rw [List.all_eq_true] at hchk
        have := hchk p hp
        rw [hf] at this
        simp [FsEntry.isFile] at this
      · simp [hp, hf]
    · cases h
  | write d f c1 =>
    simp only [runOp] at h
    split at h
    · cases h
      by_cases hp : p = d ++ [f]
      · have : c1 = c := hc hp.symm
        subst this
        rw [hp, upd_self]
      · rw [upd_ne _ _ _ hp]
        exact hf
    · cases h

theorem runOps_file_preserve {ops : List Op} {s s1 : FS} {p : FPath} {c : String}
    (hc : ∀ op ∈ ops, writesOnly p c op) (h : runOps s ops = .ok s1)
    (hf : s p = .file c) : s1 p = .file c := by
  induction ops generalizing s with
  | nil => cases h; exact hf
  | cons op rest ih =>
    obtain ⟨s2, hop, hrest⟩ := runOps_ok_of_cons h
    exact ih (fun o ho => hc o (List.mem_cons_of_mem _ ho)) hrest
      (runOp_file_preserve (hc op (List.mem_cons_self op rest)) hop hf)

/-- If a successful op list contains a write to `d ++ [f]` and every write to
that path in the list has content `c`, the final state has the file with
content `c` at that path. -/
theorem runOps_write_final {ops : List Op} {s s1 : FS} {d : FPath} {f c : String}
    (hmem : Op.write d f c ∈ ops) (hc : ∀ op ∈ ops, writesOnly (d ++ [f]) c op)
    (h : runOps s ops = .ok s1) : s1 (d ++ [f]) = .file c := by
  obtain ⟨l1, l2, rfl⟩ := List.append_of_mem hmem
  rw [runOps_append] at h
  cases h1 : runOps s l1 with
  | error st => rw [h1] at h; exact absurd h (by simp)
  | ok st =>
    rw [h1] at h
    obtain ⟨s2, hop, hrest⟩ := runOps_ok_of_cons h
    simp only [runOp] at hop
    split at hop
    · cases hop
      refine runOps_file_preserve (fun o ho => ?_) hrest (upd_self _ _ _)
      exact hc o (by simp [ho])
    · cases hop

/-- If a successful op list contains `makedirs q`, every prefix of `q` is a
directory in the final state. -/
theorem runOps_mkdir_final {ops : List Op} {s s1 : FS} {q : FPath}
    (hmem : Op.makedirs q ∈ ops) (h : runOps s ops = .ok s1) {p : FPath}
    (hp : p ∈ pathPrefixes q) : s1 p = .dir := by
  obtain ⟨l1, l2, rfl⟩ := List.append_of_mem hmem
  rw [runOps_append] at h
  cases h1 : runOps s l1 with
  | error st => rw [h1] at h; exact absurd h (by simp)
  | ok st =>
    rw [h1] at h
    obtain ⟨s2, hop, hrest⟩ := runOps_ok_of_cons h
    simp only [runOp] at hop
    split at hop
    · cases hop
      refine runOps_dir_mono hrest ?_
      rw [mkDirs_eval]
      simp [hp]
    · cases hop

theorem runOp_frame {s s1 : FS} {op : Op} (h : runOp s op = some s1) {p : FPath}
    (hp : p ∉ opTargets op) : s1 p = s p := by
  cases op with
  | makedirs q =>
    simp only [opTargets] at hp
    simp only [runOp] at h
    split at h
    · cases h; rw [mkDirs_eval]; simp [hp]
    · cases h
  | write d f c =>
    simp only [opTargets, List.mem_singleton] at hp
    simp only [runOp] at h
    split at h
    · cases h; exact upd_ne _ _ _ hp
    · cases h

theorem runOps_frame {ops : List Op} {s s1 : FS} (h : runOps s ops = .ok s1) {p : FPath}
    (hp : p ∉ targetsOf ops) : s1 p = s p := by
  induction ops generalizing s with
  | nil => cases h; rfl
  | cons op rest ih =>
    obtain ⟨s2, hop, hrest⟩ := runOps_ok_of_cons h
    simp only [targetsOf, List.flatMap_cons, List.mem_append] at hp
    push_neg at hp
    have h2 : s2 p = s p := runOp_frame hop hp.1
    have h3 : s1 p = s2 p := ih hrest (by simpa [targetsOf] using hp.2)
    rw [h3, h2]

/-! ## Path algebra helpers -/

theorem append_suffix_inj {root l1 l2 : FPath} (h : root ++ l1 = root ++ l2) : l1 = l2 :=
  List.append_cancel_left h

theorem append_suffix_ne {root : FPath} {l1 l2 : FPath} (h : l1 ≠ l2) :
    root ++ l1 ≠ root ++ l2 :=
  fun he => h (append_suffix_inj he)

theorem concat_path_inj {d1 d2 : FPath} {f1 f2 : String} (h : d1 ++ [f1] = d2 ++ [f2]) :
    d1 = d2 ∧ f1 = f2 := by
  have hlen : d1.length = d2.length := by
    have := congrArg List.length h
    simp at this
    omega
  obtain ⟨h1, h2⟩ := List.append_inj h hlen
  exact ⟨h1, by simpa using h2⟩

theorem root_ne_append {root l : FPath} (h : l ≠ []) : root ≠ root ++ l := by
  intro he
  have h2 : root ++ ([] : FPath) = root ++ l := by simpa using he
  exact h (append_suffix_inj h2).symm

/-! ## Bridging `runOk` / `runFS` with `runOps` -/

theorem runOps_of_runOk {s : FS} {root : FPath} {ts us : List String}
    (h : runOk s root ts us = true) :
    runOps s (scriptOps root ts us) = .ok (runFS s root ts us) := by
  unfold runOk runScript at h
  unfold runFS runScript
  cases hr : runOps s (scriptOps root ts us) with
  | ok s1 => rfl
  | error s1 => rw [hr] at h; simp at h

theorem runOk_of_runOps {s s1 : FS} {root : FPath} {ts us : List String}
    (h : runOps s (scriptOps root ts us) = .ok s1) :
    runOk s root ts us = true ∧ runFS s root ts us = s1 := by
  unfold runOk runFS runScript
  rw [h]
  exact ⟨rfl, rfl⟩

theorem runScript_error_elim {s s1 : FS} {root : FPath} {ts us : List String}
    (h : runScript s root ts us = .error s1) :
    runOps s (scriptOps root ts us) = .error s1 ∧ runFS s root ts us = s1 := by
  unfold runScript at h
  unfold runFS runScript
  cases hr : runOps s (scriptOps root ts us) with
  | ok s2 => rw [hr] at h; simp at h
  | error s2 =>
    rw [hr] at h
    simp only [Except.error.injEq] at h
    subst h
    exact ⟨rfl, rfl⟩

/-! ## Characterizing the ops of the script -/

theorem write_mem_scriptOps {root : FPath} {ts us : List String} {d : FPath} {f c : String}
    (h : Op.write d f c ∈ scriptOps root ts us) :
    (∃ t ∈ ts, d = root ++ ["Topics", t] ∧ f = t ++ "_example.txt" ∧ c = topicContent t) ∨
    (∃ dd ∈ difficulty_folders, d = root ++ [dd] ∧ f = dd ++ "_example.txt" ∧
      c = difficultyContent dd) ∨
    (∃ u ∈ us, d = root ++ ["Utilities"] ∧ f = u ∧ c = utilityContent u) ∨
    (d = root ∧ f = "README.md" ∧ c = readmeContent) := by
  simp only [scriptOps, topicOps, difficultyOps, utilityOps, List.mem_append,
    List.mem_singleton, List.mem_flatMap, List.mem_cons, List.not_mem_nil, or_false,
    Op.write.injEq, reduceCtorEq, false_and, exists_false, false_or] at h
  rcases h with ((h | h) | h) | h
  · exact Or.inl h
  · exact Or.inr (Or.inl h)
  · exact Or.inr (Or.inr (Or.inl h))
  · exact Or.inr (Or.inr (Or.inr h))

/-! ## Every write in the script to a given generated path has the template content -/

theorem scriptOps_writesOnly_topic {root : FPath} {ts us : List String} {t : String} :
    ∀ op ∈ scriptOps root ts us,
      writesOnly ((root ++ ["Topics", t]) ++ [t ++ "_example.txt"]) (topicContent t) op := by
  intro op hop
  cases op with
  | makedirs q => trivial
  | write d f c =>
    intro heq
    obtain ⟨hd, hf⟩ := concat_path_inj heq
    rcases write_mem_scriptOps hop with ⟨t1, ht1, rfl, rfl, rfl⟩ | ⟨dd, hdd, rfl, rfl, rfl⟩ |
      ⟨u, hu, rfl, rfl, rfl⟩ | ⟨rfl, rfl, rfl⟩
    · have h2 := append_suffix_inj hd
      simp only [List.cons.injEq, and_true] at h2
      rw [h2.2]
    · have h2 := append_suffix_inj hd
      simp at h2
    · have h2 := append_suffix_inj hd
      simp at h2
    · exact absurd hd (root_ne_append (by simp))

theorem scriptOps_writesOnly_difficulty {root : FPath} {ts us : List String} {dd0 : String}
    (hdd0 : dd0 ∈ difficulty_folders) :
    ∀ op ∈ scriptOps root ts us,
      writesOnly ((root ++ [dd0]) ++ [dd0 ++ "_example.txt"]) (difficultyContent dd0) op := by
  intro op hop
  cases op with
  | makedirs q => trivial
  | write d f c =>
    intro heq
    obtain ⟨hd, hf⟩ := concat_path_inj heq
    rcases write_mem_scriptOps hop with ⟨t1, ht1, rfl, rfl, rfl⟩ | ⟨dd, hdd, rfl, rfl, rfl⟩ |
      ⟨u, hu, rfl, rfl, rfl⟩ | ⟨rfl, rfl, rfl⟩
    · have h2 := append_suffix_inj hd
      simp at h2
    · have h2 := append_suffix_inj hd
      simp only [List.cons.injEq, and_true] at h2
      rw [h2]
    · have h2 := append_suffix_inj hd
      simp only [List.cons.injEq, and_true] at h2
      rw [← h2] at hdd0
      simp [difficulty_folders] at hdd0
    · exact absurd hd (root_ne_append (by simp))

theorem scriptOps_writesOnly_utility {root : FPath} {ts us : List String} {u0 : String} :
    ∀ op ∈ scriptOps root ts us,
      writesOnly ((root ++ ["Utilities"]) ++ [u0]) (utilityContent u0) op := by
  intro op hop
  cases op with
  | makedirs q => trivial
  | write d f c =>
    intro heq
    obtain ⟨hd, hf⟩ := concat_path_inj heq
    rcases write_mem_scriptOps hop with ⟨t1, ht1, rfl, rfl, rfl⟩ | ⟨dd, hdd, rfl, rfl, rfl⟩ |
      ⟨u, hu, rfl, rfl, rfl⟩ | ⟨rfl, rfl, rfl⟩
    · have h2 := append_suffix_inj hd
      simp at h2
    · have h2 := append_suffix_inj hd
      simp only [List.cons.injEq, and_true] at h2
      rw [h2] at hdd
      simp [difficulty_folders] at hdd
    · rw [hf]
    · exact absurd hd (root_ne_append (by simp))

theorem scriptOps_writesOnly_readme {root : FPath} {ts us : List String} :
    ∀ op ∈ scriptOps root ts us,
      writesOnly (root ++ ["README.md"]) readmeContent op := by
  intro op hop
  cases op with
  | makedirs q => trivial
  | write d f c =>
    intro heq
    have heq2 : d ++ [f] = root ++ ["README.md"] := heq
    obtain ⟨hd, hf⟩ := concat_path_inj heq2
    rcases write_mem_scriptOps hop with ⟨t1, ht1, rfl, rfl, rfl⟩ | ⟨dd, hdd, rfl, rfl, rfl⟩ |
      ⟨u, hu, rfl, rfl, rfl⟩ | ⟨rfl, rfl, rfl⟩
    · exact absurd hd.symm (root_ne_append (by simp))
    · exact absurd hd.symm (root_ne_append (by simp))
    · exact absurd hd.symm (root_ne_append (by simp))
    · rfl

/-! ## Membership of the individual ops in the script -/

theorem mem_scriptOps_of_mem_topicLoop {root : FPath} {ts us : List String} {t : String}
    (ht : t ∈ ts) {op : Op} (hop : op ∈ topicOps root t) : op ∈ scriptOps root ts us := by
  have h1 : op ∈ ts.flatMap (topicOps root) := List.mem_flatMap.mpr ⟨t, ht, hop⟩
  unfold scriptOps
  simp only [List.mem_append]
  tauto

theorem mem_scriptOps_of_mem_difficultyLoop {root : FPath} {ts us : List String} {d : String}
    (hd : d ∈ difficulty_folders) {op : Op} (hop : op ∈ difficultyOps root d) :
    op ∈ scriptOps root ts us := by
  have h1 : op ∈ difficulty_folders.flatMap (difficultyOps root) :=
    List.mem_flatMap.mpr ⟨d, hd, hop⟩
  unfold scriptOps
  simp only [List.mem_append]
  tauto

theorem mem_scriptOps_of_mem_utilityLoop {root : FPath} {ts us : List String} {u : String}
    (hu : u ∈ us) {op : Op} (hop : op ∈ utilityOps root u) : op ∈ scriptOps root ts us := by
  have h1 : op ∈ us.flatMap (utilityOps root) := List.mem_flatMap.mpr ⟨u, hu, hop⟩
  unfold scriptOps
  simp only [List.mem_append]
  tauto

theorem readme_write_mem_scriptOps {root : FPath} {ts us : List String} :
    Op.write root "README.md" readmeContent ∈ scriptOps root ts us := by
  have h1 : Op.write root "README.md" readmeContent ∈ [Op.write root "README.md" readmeContent] :=
    List.mem_singleton.mpr rfl
  unfold scriptOps
  simp only [List.mem_append]
  tauto

theorem root_mkdir_mem_scriptOps {root : FPath} {ts us : List String} :
    Op.makedirs root ∈ scriptOps root ts us := by
  have h1 : Op.makedirs root ∈ [Op.makedirs root] := List.mem_singleton.mpr rfl
  unfold scriptOps
  simp only [List.mem_append]
  tauto

theorem fixed_mkdir_mem_scriptOps {root : FPath} {ts us : List String} {n : String}
    (hn : n ∈ (["Easy", "Medium", "Hard", "Topics", "Utilities"] : List String)) :
    Op.makedirs (root ++ [n]) ∈ scriptOps root ts us := by
  have h1 : Op.makedirs (root ++ [n]) ∈ [Op.makedirs (root ++ [n])] :=
    List.mem_singleton.mpr rfl
  unfold scriptOps
  simp only [List.mem_append]
  simp only [List.mem_cons, List.not_mem_nil, or_false] at hn
  rcases hn with rfl | rfl | rfl | rfl | rfl
  · tauto
  · tauto
  · tauto
  · tauto
  · tauto

/-! ## Final-state facts of a successful run -/

theorem final_root_dir {s s1 : FS} {root : FPath} {ts us : List String} (hroot : root ≠ [])
    (h : runOps s (scriptOps root ts us) = .ok s1) : s1 root = .dir :=
  runOps_mkdir_final root_mkdir_mem_scriptOps h (self_mem_pathPrefixes hroot)

theorem final_fixed_dir {s s1 : FS} {root : FPath} {ts us : List String} {n : String}
    (hn : n ∈ (["Easy", "Medium", "Hard", "Topics", "Utilities"] : List String))
    (h : runOps s (scriptOps root ts us) = .ok s1) : s1 (root ++ [n]) = .dir :=
  runOps_mkdir_final (fixed_mkdir_mem_scriptOps hn) h (self_mem_pathPrefixes (by simp))

theorem final_topic_dir {s s1 : FS} {root : FPath} {ts us : List String} {t : String}
    (ht : t ∈ ts) (h : runOps s (scriptOps root ts us) = .ok s1) :
    s1 (root ++ ["Topics", t]) = .dir :=
  runOps_mkdir_final (mem_scriptOps_of_mem_topicLoop ht (by simp [topicOps])) h
    (self_mem_pathPrefixes (by simp))

theorem final_topic_file {s s1 : FS} {root : FPath} {ts us : List String} {t : String}
    (ht : t ∈ ts) (h : runOps s (scriptOps root ts us) = .ok s1) :
    s1 ((root ++ ["Topics", t]) ++ [t ++ "_example.txt"]) = .file (topicContent t) :=
  runOps_write_final (mem_scriptOps_of_mem_topicLoop ht (by simp [topicOps]))
    scriptOps_writesOnly_topic h

theorem final_difficulty_file {s s1 : FS} {root : FPath} {ts us : List String} {dd : String}
    (hdd : dd ∈ difficulty_folders) (h : runOps s (scriptOps root ts us) = .ok s1) :
    s1 ((root ++ [dd]) ++ [dd ++ "_example.txt"]) = .file (difficultyContent dd) :=
  runOps_write_final (mem_scriptOps_of_mem_difficultyLoop hdd (by simp [difficultyOps]))
    (scriptOps_writesOnly_difficulty hdd) h

theorem final_utility_file {s s1 : FS} {root : FPath} {ts us : List String} {u : String}
    (hu : u ∈ us) (h : runOps s (scriptOps root ts us) = .ok s1) :
    s1 ((root ++ ["Utilities"]) ++ [u]) = .file (utilityContent u) :=
  runOps_write_final (mem_scriptOps_of_mem_utilityLoop hu (by simp [utilityOps]))
    scriptOps_writesOnly_utility h

theorem final_readme_file {s s1 : FS} {root : FPath} {ts us : List String}
    (h : runOps s (scriptOps root ts us) = .ok s1) :
    s1 (root ++ ["README.md"]) = .file readmeContent :=
  runOps_write_final readme_write_mem_scriptOps scriptOps_writesOnly_readme h

/-! ## The claims -/

/-- C1: after a successful run of the script on a (nonempty) root, the six
paths root, root/Easy, root/Medium, root/Hard, root/Topics and
root/Utilities all exist as directories. -/
theorem claim_C1 {s : FS} {root : FPath} (hroot : root ≠ [])
    (h : runOk s root topics utilities = true) :
    runFS s root topics utilities root = .dir ∧
    runFS s root topics utilities (root ++ ["Easy"]) = .dir ∧
    runFS s root topics utilities (root ++ ["Medium"]) = .dir ∧
    runFS s root topics utilities (root ++ ["Hard"]) = .dir ∧
    runFS s root topics utilities (root ++ ["Topics"]) = .dir ∧
    runFS s root topics utilities (root ++ ["Utilities"]) = .dir := by
  have hops := runOps_of_runOk h
  refine ⟨final_root_dir hroot hops, ?_, ?_, ?_, ?_, ?_⟩ <;>
    exact final_fixed_dir (by simp) hops

/-- Witness for C1: a concrete successful run from the empty filesystem. -/
theorem claim_C1_witness :
    (["r"] : FPath) ≠ [] ∧ runOk emptyFS ["r"] topics utilities = true ∧
    runFS emptyFS ["r"] topics utilities ["r"] = .dir :=
  ⟨by decide, by decide, (claim_C1 (by decide) (by decide)).1⟩

/-- C2: the topic list has exactly 23 names; for every topic `t` in it, after
a successful run `root/Topics/t` is a directory and
`root/Topics/t/{t}_example.txt` is a file whose content is exactly the two
newline-terminated lines `# Dummy file for {t} topic` and
`# Add your code solutions for {t} here.`, each containing the substring `t`. -/
theorem claim_C2 :
    topics.length = 23 ∧
    (∀ t ∈ topics,
      topicContent t =
        "# Dummy file for " ++ t ++ " topic" ++ "\n" ++
        ("# Add your code solutions for " ++ t ++ " here." ++ "\n") ∧
      strContains ("# Dummy file for " ++ t ++ " topic") t = true ∧
      strContains ("# Add your code solutions for " ++ t ++ " here.") t = true) ∧
    ∀ (s : FS) (root : FPath) (t : String), t ∈ topics →
      runOk s root topics utilities = true →
      runFS s root topics utilities (root ++ ["Topics", t]) = .dir ∧
      runFS s root topics utilities (root ++ ["Topics", t, t ++ "_example.txt"]) =
        .file (topicContent t) := by
  refine ⟨rfl, by decide, ?_⟩
  intro s root t ht h
  have hops := runOps_of_runOk h
  refine ⟨final_topic_dir ht hops, ?_⟩
  have hfile := final_topic_file ht hops
  rw [List.append_assoc] at hfile
  exact hfile

/-- Witness for C2: the `Arrays` topic on a concrete successful run. -/
theorem claim_C2_witness :
    ("Arrays" ∈ topics) ∧ runOk emptyFS ["r"] topics utilities = true ∧
    runFS emptyFS ["r"] topics utilities (["r"] ++ ["Topics", "Arrays"]) = .dir ∧
    runFS emptyFS ["r"] topics utilities
      (["r"] ++ ["Topics", "Arrays", "Arrays_example.txt"]) = .file (topicContent "Arrays") := by
  refine ⟨by decide, by decide, ?_, ?_⟩
  · exact (claim_C2.2.2 emptyFS ["r"] "Arrays" (by decide) (by decide)).1
  · exact (claim_C2.2.2 emptyFS ["r"] "Arrays" (by decide) (by decide)).2

/-- C3: for each difficulty `d` in the fixed order Easy, Medium, Hard, after
a successful run `root/{d}/{d}_example.txt` is a file whose content is
exactly the two newline-terminated lines `# Dummy file for {d} level` and
`# Add your {d} level code solutions here.`, both containing `d`. -/
theorem claim_C3 :
    difficulty_folders = ["Easy", "Medium", "Hard"] ∧
    (∀ d ∈ difficulty_folders,
      difficultyContent d =
        "# Dummy file for " ++ d ++ " level" ++ "\n" ++
        ("# Add your " ++ d ++ " level code solutions here." ++ "\n") ∧
      strContains ("# Dummy file for " ++ d ++ " level") d = true ∧
      strContains ("# Add your " ++ d ++ " level code solutions here.") d = true) ∧
    ∀ (s : FS) (root : FPath) (d : String), d ∈ difficulty_folders →
      runOk s root topics utilities = true →
      runFS s root topics utilities (root ++ [d, d ++ "_example.txt"]) =
        .file (difficultyContent d) := by
  refine ⟨rfl, by decide, ?_⟩
  intro s root d hd h
  have hops := runOps_of_runOk h
  have hfile := final_difficulty_file hd hops
  rw [List.append_assoc] at hfile
  exact hfile

/-- Witness for C3: the `Easy` difficulty on a concrete successful run. -/
theorem claim_C3_witness :
    ("Easy" ∈ difficulty_folders) ∧ runOk emptyFS ["r"] topics utilities = true ∧
    runFS emptyFS ["r"] topics utilities (["r"] ++ ["Easy", "Easy_example.txt"]) =
      .file (difficultyContent "Easy") := by
  refine ⟨by decide, by decide, ?_⟩
  exact claim_C3.2.2 emptyFS ["r"] "Easy" (by decide) (by decide)

/-- C4: the utility list is exactly the two filenames
`readme_generator.py`, `leetcode_template.py` (in that order); for each
utility filename `u`, after a successful run `root/Utilities/u` is a file
whose content is exactly two newline-terminated lines: the fixed line
`# This is a placeholder for the script` (independent of `u`) and the line
`# {u} - Add your utility code here.`, which contains the filename `u`. -/
theorem claim_C4 :
    utilities = ["readme_generator.py", "leetcode_template.py"] ∧
    (∀ u ∈ utilities,
      utilityContent u =
        "# This is a placeholder for the script" ++ "\n" ++
        ("# " ++ u ++ " - Add your utility code here." ++ "\n") ∧
      strContains ("# " ++ u ++ " - Add your utility code here.") u = true) ∧
    ∀ (s : FS) (root : FPath) (u : String), u ∈ utilities →
      runOk s root topics utilities = true →
      runFS s root topics utilities (root ++ ["Utilities", u]) = .file (utilityContent u) := by
  refine ⟨rfl, by decide, ?_⟩
  intro s root u hu h
  have hops := runOps_of_runOk h
  have hfile := final_utility_file hu hops
  rw [List.append_assoc] at hfile
  exact hfile

/-- Witness for C4: `readme_generator.py` on a concrete successful run. -/
theorem claim_C4_witness :
    ("readme_generator.py" ∈ utilities) ∧ runOk emptyFS ["r"] topics utilities = true ∧
    runFS emptyFS ["r"] topics utilities (["r"] ++ ["Utilities", "readme_generator.py"]) =
      .file (utilityContent "readme_generator.py") := by
  refine ⟨by decide, by decide, ?_⟩
  exact claim_C4.2.2 emptyFS ["r"] "readme_generator.py" (by decide) (by decide)

/-- C6: after a successful run `root/README.md` exists with the fixed
multi-line content `readmeContent`, which starts with the top-level heading
`# LeetCode Project` and has bullet items naming Easy, Medium, Hard, Topics
and Utilities. -/
theorem claim_C6 {s : FS} {root : FPath} (h : runOk s root topics utilities = true) :
    runFS s root topics utilities (root ++ ["README.md"]) = .file readmeContent ∧
    strStartsWith readmeContent "# LeetCode Project" = true ∧
    strContains readmeContent "- `Easy`, `Medium`, `Hard` - Difficulty folders" = true ∧
    strContains readmeContent "- `Topics` - Folder containing various topics with solutions." =
      true ∧
    strContains readmeContent "- `Utilities` - Utility scripts for various purposes." = true := by
  exact ⟨final_readme_file (runOps_of_runOk h), by decide, by decide, by decide, by decide⟩

/-- Witness for C6: a concrete successful run from the empty filesystem. -/
theorem claim_C6_witness :
    runOk emptyFS ["r"] topics utilities = true ∧
    runFS emptyFS ["r"] topics utilities (["r"] ++ ["README.md"]) = .file readmeContent :=
  ⟨by decide, (claim_C6 (by decide)).1⟩

/-- C7: the script's filesystem operations are exactly the §4 steps
concatenated in order, and the completion message reporting the absolute
root path is produced exactly when every operation has succeeded (a failed
run produces no `.ok` result, hence no message). -/
theorem claim_C7 (root : FPath) (ts us : List String) :
    scriptOps root ts us =
      specStep1 root ++ specStep2 root ++ specStep3 root ++ specStep4 root ts ++
        specStep5 root ++ specStep6 root ++ specStep7 root us ++ specStep8 root ∧
    (∀ (s s1 : FS) (m : String), runScript s root ts us = .ok (s1, m) →
      runOps s (scriptOps root ts us) = .ok s1 ∧
      m = completionMessage root ∧
      m = "Project structure with dummy files created at: " ++ absPath root) ∧
    (∀ (s se : FS), runScript s root ts us = .error se →
      ∀ (s1 : FS) (m : String), runScript s root ts us ≠ .ok (s1, m)) := by
  refine ⟨?_, ?_, ?_⟩
  · rfl
  · intro s s1 m h
    unfold runScript at h
    cases hr : runOps s (scriptOps root ts us) with
    | ok s2 =>
      rw [hr] at h
      simp only [Except.ok.injEq, Prod.mk.injEq] at h
      obtain ⟨rfl, rfl⟩ := h
      exact ⟨rfl, rfl, rfl⟩
    | error s2 => rw [hr] at h; cases h
  · intro s se herr s1 m hok
    rw [herr] at hok
    cases hok

/-- Witness for C7: a concrete run, its message, and the op-list identity. -/
theorem claim_C7_witness :
    runOps emptyFS (scriptOps ["r"] ["Arrays"] ["x.py"]) =
      .ok (runFS emptyFS ["r"] ["Arrays"] ["x.py"]) ∧
    completionMessage ["r"] = "Project structure with dummy files created at: " ++ absPath ["r"] ∧
    scriptOps ["r"] ["Arrays"] ["x.py"] =
      specStep1 ["r"] ++ specStep2 ["r"] ++ specStep3 ["r"] ++ specStep4 ["r"] ["Arrays"] ++
        specStep5 ["r"] ++ specStep6 ["r"] ++ specStep7 ["r"] ["x.py"] ++ specStep8 ["r"] := by
  have h := claim_C7 ["r"] ["Arrays"] ["x.py"]
  have h2 := h.2.1 emptyFS (runFS emptyFS ["r"] ["Arrays"] ["x.py"]) (completionMessage ["r"])
    (by rfl)
  exact ⟨h2.1, h2.2.2, h.1⟩

/-- A failing op-list run decomposes as: the successfully executed prefix
(whose length `execCount` gives), reaching exactly the error state, followed
by the failing op. -/
theorem runOps_error_split {ops : List Op} {s se : FS} (h : runOps s ops = .error se) :
    runOps s (ops.take (execCount s ops)) = .ok se ∧
    ((ops.drop (execCount s ops)).head?.map (fun op => runOp se op)) = some none := by
  induction ops generalizing s with
  | nil => cases h
  | cons op rest ih =>
    simp only [runOps] at h
    cases hop : runOp s op with
    | some s2 =>
      rw [hop] at h
      have hrec := ih h
      simp only [execCount, hop, List.take_succ_cons, List.drop_succ_cons]
      exact ⟨runOps_cons_ok hop hrec.1, hrec.2⟩
    | none =>
      rw [hop] at h
      cases h
      constructor
      · simp [execCount, hop, runOps]
      · simp [execCount, hop]

/-- C8: if the script run fails at some operation, the error state is exactly
the state produced by the successfully executed prefix of the operation
sequence (no rollback, everything created before the failure remains), the
failing operation is the next one and it indeed fails there, and no
completion message is produced. -/
theorem claim_C8 {s se : FS} {root : FPath}
    (h : runScript s root topics utilities = .error se) :
    runOps s ((scriptOps root topics utilities).take
        (execCount s (scriptOps root topics utilities))) = .ok se ∧
    (((scriptOps root topics utilities).drop
        (execCount s (scriptOps root topics utilities))).head?.map
      (fun op => runOp se op)) = some none ∧
    runFS s root topics utilities = se ∧
    ∀ (s1 : FS) (m : String), runScript s root topics utilities ≠ .ok (s1, m) := by
  obtain ⟨hops, hfs⟩ := runScript_error_elim h
  obtain ⟨h1, h2⟩ := runOps_error_split hops
  refine ⟨h1, h2, hfs, ?_⟩
  intro s1 m hok
  rw [h] at hok
  cases hok

/-- Witness for C8: a root path blocked by an existing regular file. -/
theorem claim_C8_witness :
    runScript (upd emptyFS ["r"] (.file "x")) ["r"] topics utilities =
      .error (upd emptyFS ["r"] (.file "x")) ∧
    runOps (upd emptyFS ["r"] (.file "x")) ((scriptOps ["r"] topics utilities).take
        (execCount (upd emptyFS ["r"] (.file "x")) (scriptOps ["r"] topics utilities))) =
      .ok (upd emptyFS ["r"] (.file "x")) := by
  refine ⟨rfl, ?_⟩
  exact (claim_C8 (by rfl)).1

/-! ## Writes targeting README.md -/

theorem writeAt_readme_topicOps {root : FPath} {t : String} {op : Op}
    (hop : op ∈ topicOps root t) : writeAt (root ++ ["README.md"]) op = none := by
  simp only [topicOps, List.mem_cons, List.not_mem_nil, or_false] at hop
  rcases hop with rfl | rfl
  · rfl
  · simp only [writeAt]
    rw [if_neg]
    intro he
    exact absurd (concat_path_inj he).1.symm (root_ne_append (by simp))

theorem writeAt_readme_difficultyOps {root : FPath} {d : String} {op : Op}
    (hop : op ∈ difficultyOps root d) : writeAt (root ++ ["README.md"]) op = none := by
  simp only [difficultyOps, List.mem_singleton] at hop
  subst hop
  simp only [writeAt]
  rw [if_neg]
  intro he
  exact absurd (concat_path_inj he).1.symm (root_ne_append (by simp))

theorem writeAt_readme_utilityOps {root : FPath} {u : String} {op : Op}
    (hop : op ∈ utilityOps root u) : writeAt (root ++ ["README.md"]) op = none := by
  simp only [utilityOps, List.mem_singleton] at hop
  subst hop
  simp only [writeAt]
  rw [if_neg]
  intro he
  exact absurd (concat_path_inj he).1.symm (root_ne_append (by simp))

/-- Regardless of the topic and utility lists, the script writes to
`root/README.md` exactly once, with the fixed content. -/
theorem writeContentsAt_readme (root : FPath) (ts us : List String) :
    writeContentsAt (scriptOps root ts us) (root ++ ["README.md"]) = [readmeContent] := by
  unfold writeContentsAt scriptOps
  simp only [List.filterMap_append]
  have h4 : (ts.flatMap (topicOps root)).filterMap (writeAt (root ++ ["README.md"])) = [] := by
    rw [List.filterMap_eq_nil_iff]
    intro op hop
    obtain ⟨t, _, hop2⟩ := List.mem_flatMap.mp hop
    exact writeAt_readme_topicOps hop2
  have h5 : (difficulty_folders.flatMap (difficultyOps root)).filterMap
      (writeAt (root ++ ["README.md"])) = [] := by
    rw [List.filterMap_eq_nil_iff]
    intro op hop
    obtain ⟨d, _, hop2⟩ := List.mem_flatMap.mp hop
    exact writeAt_readme_difficultyOps hop2
  have h7 : (us.flatMap (utilityOps root)).filterMap (writeAt (root ++ ["README.md"])) = [] := by
    rw [List.filterMap_eq_nil_iff]
    intro op hop
    obtain ⟨u, _, hop2⟩ := List.mem_flatMap.mp hop
    exact writeAt_readme_utilityOps hop2
  rw [h4, h5, h7]
  simp [writeAt]

/-- C9: the bytes written to `root/README.md` do not depend on the topic and
utility lists: for any root and any two input list pairs, the script performs
the same single fixed-content write to that path, and after any two
successful runs the final README.md content is identical. -/
theorem claim_C9 (root : FPath) (ts1 us1 ts2 us2 : List String) :
    writeContentsAt (scriptOps root ts1 us1) (root ++ ["README.md"]) =
      writeContentsAt (scriptOps root ts2 us2) (root ++ ["README.md"]) ∧
    writeContentsAt (scriptOps root ts1 us1) (root ++ ["README.md"]) = [readmeContent] ∧
    ∀ (s1 s2 : FS), runOk s1 root ts1 us1 = true → runOk s2 root ts2 us2 = true →
      runFS s1 root ts1 us1 (root ++ ["README.md"]) =
        runFS s2 root ts2 us2 (root ++ ["README.md"]) := by
  refine ⟨by rw [writeContentsAt_readme, writeContentsAt_readme],
    writeContentsAt_readme root ts1 us1, ?_⟩
  intro s1 s2 h1 h2
  rw [final_readme_file (runOps_of_runOk h1), final_readme_file (runOps_of_runOk h2)]

/-- Witness for C9: two concrete runs with different topic and utility lists. -/
theorem claim_C9_witness :
    runOk emptyFS ["r"] ["Arrays"] ["x.py"] = true ∧
    runOk emptyFS ["r"] ["Trees", "Math"] ["y.py"] = true ∧
    runFS emptyFS ["r"] ["Arrays"] ["x.py"] (["r"] ++ ["README.md"]) =
      runFS emptyFS ["r"] ["Trees", "Math"] ["y.py"] (["r"] ++ ["README.md"]) := by
  refine ⟨by decide, by decide, ?_⟩
  exact (claim_C9 ["r"] ["Arrays"] ["x.py"] ["Trees", "Math"] ["y.py"]).2.2 emptyFS emptyFS
    (by decide) (by decide)

/-! ## Forward execution: conditions under which the script runs to completion -/

theorem pathPrefixes_append_one (root : FPath) (a : String) :
    pathPrefixes (root ++ [a]) = pathPrefixes root ++ [root ++ [a]] := by
  rw [pathPrefixes_append]
  rfl

theorem pathPrefixes_append_two (root : FPath) (a b : String) :
    pathPrefixes (root ++ [a, b]) = pathPrefixes root ++ [root ++ [a], root ++ [a, b]] := by
  rw [pathPrefixes_append]
  rfl

theorem mk_step {s : FS} {p : FPath} (h : ∀ q ∈ pathPrefixes p, (s q).isFile = false) :
    runOp s (.makedirs p) = some (mkDirs s p) := by
  simp only [runOp, if_pos]
  rw [if_pos]
  rw [List.all_eq_true]
  intro q hq
  rw [h q hq]
  rfl

theorem write_step {s : FS} {d : FPath} {f c : String} (h1 : s d = .dir)
    (h2 : s (d ++ [f]) ≠ .dir) : runOp s (.write d f c) = some (upd s (d ++ [f]) (.file c)) := by
  simp only [runOp]
  rw [if_pos]
  rw [h1]
  simp [FsEntry.isDir, isDir_false_iff.mpr h2]

theorem mkDirs_dir_of {s : FS} {p q : FPath} (h : q ∈ pathPrefixes p) : mkDirs s p q = .dir := by
  rw [mkDirs_eval, if_pos h]

theorem mkDirs_keep_dir {s : FS} {p q : FPath} (h : s q = .dir) : mkDirs s p q = .dir := by
  rw [mkDirs_eval]
  split <;> [rfl; exact h]

theorem mkDirs_not_file {s : FS} {p q : FPath} (h : (s q).isFile = false) :
    (mkDirs s p q).isFile = false := by
  rw [mkDirs_eval]
  split <;> [rfl; exact h]

theorem mkDirs_outside {s : FS} {p q : FPath} (h : q ∉ pathPrefixes p) : mkDirs s p q = s q := by
  rw [mkDirs_eval, if_neg h]

/-- The `for topic in topics` loop runs to completion from any state in which
the `Topics` chain is in place, no topic directory slot holds a regular file,
and no topic example-file slot holds a directory. -/
theorem topicLoop_ok {root : FPath} {ts : List String} {s : FS}
    (hdir : ∀ q ∈ pathPrefixes (root ++ ["Topics"]), s q = .dir)
    (hts : ∀ t ∈ ts, (s (root ++ ["Topics", t])).isFile = false ∧
      s ((root ++ ["Topics", t]) ++ [t ++ "_example.txt"]) ≠ .dir) :
    ∃ s1, runOps s (ts.flatMap (topicOps root)) = .ok s1 := by
  induction ts generalizing s with
  | nil => exact ⟨s, rfl⟩
  | cons t rest ih =>
    have ht := hts t (by simp)
    have hchk : ∀ q ∈ pathPrefixes (root ++ ["Topics", t]), (s q).isFile = false := by
      intro q hq
      rw [pathPrefixes_append_two] at hq
      rw [pathPrefixes_append_one] at hdir
      rcases List.mem_append.mp hq with h1 | h1
      · rw [hdir q (List.mem_append.mpr (Or.inl h1))]
        rfl
      · rcases List.mem_cons.mp h1 with rfl | h2
        · rw [hdir (root ++ ["Topics"]) (List.mem_append.mpr (Or.inr (by simp)))]
          rfl
        · rw [List.mem_singleton.mp h2]
          exact ht.1
    have hstep1 : runOp s (.makedirs (root ++ ["Topics", t])) =
        some (mkDirs s (root ++ ["Topics", t])) := mk_step hchk
    set s1 := mkDirs s (root ++ ["Topics", t]) with hs1
    have hparent : s1 (root ++ ["Topics", t]) = .dir :=
      mkDirs_dir_of (self_mem_pathPrefixes (by simp))
    have hfpath : (root ++ ["Topics", t]) ++ [t ++ "_example.txt"] ∉
        pathPrefixes (root ++ ["Topics", t]) := by
      intro hmem
      have := length_le_of_mem_pathPrefixes hmem
      simp at this
    have htarget : s1 ((root ++ ["Topics", t]) ++ [t ++ "_example.txt"]) ≠ .dir := by
      rw [hs1, mkDirs_outside hfpath]
      exact ht.2
    have hstep2 : runOp s1 (.write (root ++ ["Topics", t]) (t ++ "_example.txt")
        (topicContent t)) = some (upd s1 ((root ++ ["Topics", t]) ++ [t ++ "_example.txt"])
          (.file (topicContent t))) := write_step hparent htarget
    set s2 := upd s1 ((root ++ ["Topics", t]) ++ [t ++ "_example.txt"]) (.file (topicContent t))
      with hs2
    have hlen2 : ∀ q ∈ pathPrefixes (root ++ ["Topics"]),
        q ≠ (root ++ ["Topics", t]) ++ [t ++ "_example.txt"] := by
      intro q hq he
      have h1 := length_le_of_mem_pathPrefixes hq
      rw [he] at h1
      simp at h1
    have hdir2 : ∀ q ∈ pathPrefixes (root ++ ["Topics"]), s2 q = .dir := by
      intro q hq
      rw [hs2, upd_ne _ _ _ (hlen2 q hq), hs1]
      exact mkDirs_keep_dir (hdir q hq)
    have hts2 : ∀ t1 ∈ rest, (s2 (root ++ ["Topics", t1])).isFile = false ∧
        s2 ((root ++ ["Topics", t1]) ++ [t1 ++ "_example.txt"]) ≠ .dir := by
      intro t1 ht1
      have horig := hts t1 (by simp [ht1])
      constructor
      · have hne : root ++ ["Topics", t1] ≠ (root ++ ["Topics", t]) ++ [t ++ "_example.txt"] := by
          intro he
          have := congrArg List.length he
          simp at this
        rw [hs2, upd_ne _ _ _ hne, hs1]
        exact mkDirs_not_file horig.1
      · by_cases he : (root ++ ["Topics", t1]) ++ [t1 ++ "_example.txt"] =
            (root ++ ["Topics", t]) ++ [t ++ "_example.txt"]
        · rw [hs2, he, upd_self]
          simp
        · have hout : (root ++ ["Topics", t1]) ++ [t1 ++ "_example.txt"] ∉
              pathPrefixes (root ++ ["Topics", t]) := by
            intro hmem
            have := length_le_of_mem_pathPrefixes hmem
            simp at this
          rw [hs2, upd_ne _ _ _ he, hs1, mkDirs_outside hout]
          exact horig.2
    obtain ⟨sfin, hfin⟩ := ih hdir2 hts2
    refine ⟨sfin, ?_⟩
    show runOps s (topicOps root t ++ rest.flatMap (topicOps root)) = .ok sfin
    rw [runOps_append]
    have : runOps s (topicOps root t) = .ok s2 := by
      simp only [topicOps, runOps, hstep1, hstep2]
    rw [this]
    exact hfin

/-- The difficulty-file loop runs to completion from any state in which each
difficulty folder is a directory and no example-file slot is a directory
(stated for an arbitrary folder-name list). -/
theorem diffLoop_ok {root : FPath} {ds : List String} {s : FS}
    (hdir : ∀ d ∈ ds, s (root ++ [d]) = .dir)
    (hd : ∀ d ∈ ds, s ((root ++ [d]) ++ [d ++ "_example.txt"]) ≠ .dir) :
    ∃ s1, runOps s (ds.flatMap (difficultyOps root)) = .ok s1 := by
  induction ds generalizing s with
  | nil => exact ⟨s, rfl⟩
  | cons d rest ih =>
    have hstep : runOp s (.write (root ++ [d]) (d ++ "_example.txt") (difficultyContent d)) =
        some (upd s ((root ++ [d]) ++ [d ++ "_example.txt"]) (.file (difficultyContent d))) :=
      write_step (hdir d (by simp)) (hd d (by simp))
    set s1 := upd s ((root ++ [d]) ++ [d ++ "_example.txt"]) (.file (difficultyContent d))
      with hs1
    have hdir2 : ∀ d1 ∈ rest, s1 (root ++ [d1]) = .dir := by
      intro d1 hd1
      have hne : root ++ [d1] ≠ (root ++ [d]) ++ [d ++ "_example.txt"] := by
        intro he
        have := congrArg List.length he
        simp at this
      rw [hs1, upd_ne _ _ _ hne]
      exact hdir d1 (by simp [hd1])
    have hd2 : ∀ d1 ∈ rest, s1 ((root ++ [d1]) ++ [d1 ++ "_example.txt"]) ≠ .dir := by
      intro d1 hd1
      by_cases he : (root ++ [d1]) ++ [d1 ++ "_example.txt"] =
          (root ++ [d]) ++ [d ++ "_example.txt"]
      · rw [hs1, he, upd_self]
        simp
      · rw [hs1, upd_ne _ _ _ he]
        exact hd d1 (by simp [hd1])
    obtain ⟨sfin, hfin⟩ := ih hdir2 hd2
    refine ⟨sfin, ?_⟩
    show runOps s (difficultyOps root d ++ rest.flatMap (difficultyOps root)) = .ok sfin
    rw [runOps_append]
    have : runOps s (difficultyOps root d) = .ok s1 := by
      simp only [difficultyOps, runOps, hstep]
    rw [this]
    exact hfin

/-- The utility-file loop runs to completion from any state in which the
`Utilities` folder is a directory and no utility-file slot is a directory. -/
theorem utilLoop_ok {root : FPath} {us : List String} {s : FS}
    (hdir : s (root ++ ["Utilities"]) = .dir)
    (hu : ∀ u ∈ us, s ((root ++ ["Utilities"]) ++ [u]) ≠ .dir) :
    ∃ s1, runOps s (us.flatMap (utilityOps root)) = .ok s1 := by
  induction us generalizing s with
  | nil => exact ⟨s, rfl⟩
  | cons u rest ih =>
    have hstep : runOp s (.write (root ++ ["Utilities"]) u (utilityContent u)) =
        some (upd s ((root ++ ["Utilities"]) ++ [u]) (.file (utilityContent u))) :=
      write_step hdir (hu u (by simp))
    set s1 := upd s ((root ++ ["Utilities"]) ++ [u]) (.file (utilityContent u)) with hs1
    have hdir2 : s1 (root ++ ["Utilities"]) = .dir := by
      have hne : root ++ ["Utilities"] ≠ (root ++ ["Utilities"]) ++ [u] := by
        intro he
        have := congrArg List.length he
        simp at this
      rw [hs1, upd_ne _ _ _ hne]
      exact hdir
    have hu2 : ∀ u1 ∈ rest, s1 ((root ++ ["Utilities"]) ++ [u1]) ≠ .dir := by
      intro u1 hu1
      by_cases he : (root ++ ["Utilities"]) ++ [u1] = (root ++ ["Utilities"]) ++ [u]
      · rw [hs1, he, upd_self]
        simp
      · rw [hs1, upd_ne _ _ _ he]
        exact hu u1 (by simp [hu1])
    obtain ⟨sfin, hfin⟩ := ih hdir2 hu2
    refine ⟨sfin, ?_⟩
    show runOps s (utilityOps root u ++ rest.flatMap (utilityOps root)) = .ok sfin
    rw [runOps_append]
    have : runOps s (utilityOps root u) = .ok s1 := by
      simp only [utilityOps, runOps, hstep]
    rw [this]
    exact hfin

theorem mem_pathPrefixes_append_cases {root l q : FPath} (h : q ∈ pathPrefixes (root ++ l)) :
    q ∈ pathPrefixes root ∨ ∃ l1 ∈ pathPrefixes l, q = root ++ l1 := by
  rw [pathPrefixes_append] at h
  rcases List.mem_append.mp h with h1 | h1
  · exact Or.inl h1
  · obtain ⟨l1, hl1, he⟩ := List.mem_map.mp h1
    exact Or.inr ⟨l1, hl1, he.symm⟩

theorem append_not_mem_pathPrefixes_self {root m : FPath} (hm : m ≠ []) :
    root ++ m ∉ pathPrefixes root := by
  intro h
  have h1 := length_le_of_mem_pathPrefixes h
  rw [List.length_append] at h1
  have h2 : 0 < m.length := List.length_pos.mpr hm
  omega

theorem suffix_not_mem_pathPrefixes_append {root l m : FPath} (hm : m ≠ [])
    (hnotin : ∀ l1 ∈ pathPrefixes l, m ≠ l1) : root ++ m ∉ pathPrefixes (root ++ l) := by
  intro h
  rcases mem_pathPrefixes_append_cases h with h1 | ⟨l1, hl1, he⟩
  · exact append_not_mem_pathPrefixes_self hm h1
  · exact hnotin l1 hl1 (append_suffix_inj he)

theorem mem_targets_topicLoop {root : FPath} {ts : List String} {p : FPath} :
    p ∈ targetsOf (ts.flatMap (topicOps root)) ↔
    ∃ t ∈ ts, p ∈ pathPrefixes (root ++ ["Topics", t]) ∨
      p = (root ++ ["Topics", t]) ++ [t ++ "_example.txt"] := by
  constructor
  · intro h
    obtain ⟨op, hopmem, hpt⟩ := List.mem_flatMap.mp h
    obtain ⟨t, ht, hop2⟩ := List.mem_flatMap.mp hopmem
    simp only [topicOps, List.mem_cons, List.not_mem_nil, or_false] at hop2
    rcases hop2 with rfl | rfl
    · exact ⟨t, ht, Or.inl hpt⟩
    · simp only [opTargets, List.mem_singleton] at hpt
      exact ⟨t, ht, Or.inr hpt⟩
  · rintro ⟨t, ht, hc | hc⟩
    · exact List.mem_flatMap.mpr ⟨.makedirs (root ++ ["Topics", t]),
        List.mem_flatMap.mpr ⟨t, ht, by simp [topicOps]⟩, hc⟩
    · exact List.mem_flatMap.mpr ⟨.write (root ++ ["Topics", t]) (t ++ "_example.txt")
        (topicContent t), List.mem_flatMap.mpr ⟨t, ht, by simp [topicOps]⟩,
        by simp [opTargets, hc]⟩

theorem mem_targets_diffLoop {root : FPath} {ds : List String} {p : FPath} :
    p ∈ targetsOf (ds.flatMap (difficultyOps root)) ↔
    ∃ d ∈ ds, p = (root ++ [d]) ++ [d ++ "_example.txt"] := by
  constructor
  · intro h
    obtain ⟨op, hopmem, hpt⟩ := List.mem_flatMap.mp h
    obtain ⟨d, hd, hop2⟩ := List.mem_flatMap.mp hopmem
    simp only [difficultyOps, List.mem_singleton] at hop2
    subst hop2
    simp only [opTargets, List.mem_singleton] at hpt
    exact ⟨d, hd, hpt⟩
  · rintro ⟨d, hd, hc⟩
    exact List.mem_flatMap.mpr ⟨.write (root ++ [d]) (d ++ "_example.txt")
      (difficultyContent d), List.mem_flatMap.mpr ⟨d, hd, by simp [difficultyOps]⟩,
      by simp [opTargets, hc]⟩

theorem mem_targets_utilLoop {root : FPath} {us : List String} {p : FPath} :
    p ∈ targetsOf (us.flatMap (utilityOps root)) ↔
    ∃ u ∈ us, p = (root ++ ["Utilities"]) ++ [u] := by
  constructor
  · intro h
    obtain ⟨op, hopmem, hpt⟩ := List.mem_flatMap.mp h
    obtain ⟨u, hu, hop2⟩ := List.mem_flatMap.mp hopmem
    simp only [utilityOps, List.mem_singleton] at hop2
    subst hop2
    simp only [opTargets, List.mem_singleton] at hpt
    exact ⟨u, hu, hpt⟩
  · rintro ⟨u, hu, hc⟩
    exact List.mem_flatMap.mpr ⟨.write (root ++ ["Utilities"]) u (utilityContent u),
      List.mem_flatMap.mpr ⟨u, hu, by simp [utilityOps]⟩, by simp [opTargets, hc]⟩

theorem topicLoop_frame {root : FPath} {ts : List String} {s s1 : FS} {p : FPath}
    (h : runOps s (ts.flatMap (topicOps root)) = .ok s1)
    (hp1 : ∀ t, p ∉ pathPrefixes (root ++ ["Topics", t]))
    (hp2 : ∀ t, p ≠ (root ++ ["Topics", t]) ++ [t ++ "_example.txt"]) : s1 p = s p := by
  refine runOps_frame h ?_
  rw [mem_targets_topicLoop]
  rintro ⟨t, _, hc | hc⟩
  · exact hp1 t hc
  · exact hp2 t hc

theorem diffLoop_frame {root : FPath} {ds : List String} {s s1 : FS} {p : FPath}
    (h : runOps s (ds.flatMap (difficultyOps root)) = .ok s1)
    (hp : ∀ d ∈ ds, p ≠ (root ++ [d]) ++ [d ++ "_example.txt"]) : s1 p = s p := by
  refine runOps_frame h ?_
  rw [mem_targets_diffLoop]
  rintro ⟨d, hd, hc⟩
  exact hp d hd hc

theorem utilLoop_frame {root : FPath} {us : List String} {s s1 : FS} {p : FPath}
    (h : runOps s (us.flatMap (utilityOps root)) = .ok s1)
    (hp : ∀ u ∈ us, p ≠ (root ++ ["Utilities"]) ++ [u]) : s1 p = s p := by
  refine runOps_frame h ?_
  rw [mem_targets_utilLoop]
  rintro ⟨u, hu, hc⟩
  exact hp u hu hc

/-- The script runs to completion from any state satisfying the natural
preconditions: a nonempty root, no regular file sitting on the directory
chain, and no directory sitting where a placeholder file must be written. -/
theorem scriptOps_run_ok {s : FS} {root : FPath} {ts us : List String} (hroot : root ≠ [])
    (hP1 : ∀ q ∈ pathPrefixes root, (s q).isFile = false)
    (hP2 : ∀ n ∈ (["Easy", "Medium", "Hard", "Topics", "Utilities"] : List String),
      (s (root ++ [n])).isFile = false)
    (hP3 : ∀ t ∈ ts, (s (root ++ ["Topics", t])).isFile = false ∧
      s ((root ++ ["Topics", t]) ++ [t ++ "_example.txt"]) ≠ .dir)
    (hP4 : ∀ d ∈ difficulty_folders, s ((root ++ [d]) ++ [d ++ "_example.txt"]) ≠ .dir)
    (hP5 : ∀ u ∈ us, s ((root ++ ["Utilities"]) ++ [u]) ≠ .dir)
    (hP6 : s (root ++ ["README.md"]) ≠ .dir) :
    ∃ sfin, runOps s (scriptOps root ts us) = .ok sfin := by
  set s1 := mkDirs s root with hs1
  set s2 := mkDirs s1 (root ++ ["Easy"]) with hs2
  set s3 := mkDirs s2 (root ++ ["Medium"]) with hs3
  set s4 := mkDirs s3 (root ++ ["Hard"]) with hs4
  set s5 := mkDirs s4 (root ++ ["Topics"]) with hs5
  have hsuf_ne : ∀ m1 m2 : FPath, m1.length ≠ m2.length → root ++ m1 ≠ root ++ m2 := by
    intro m1 m2 hl he
    exact hl (by rw [append_suffix_inj he])
  -- paths strictly below the five initial makedirs targets are untouched in s5
  have hS5_untouched : ∀ m : FPath, m ≠ [] → m ≠ ["Easy"] → m ≠ ["Medium"] → m ≠ ["Hard"] →
      m ≠ ["Topics"] → s5 (root ++ m) = s (root ++ m) := by
    intro m h0 hE hM hH hT
    rw [hs5, mkDirs_outside (suffix_not_mem_pathPrefixes_append h0 (by
      intro l1 hl1; simp only [pathPrefixes, List.map_nil, List.map_cons, List.mem_singleton]
        at hl1; subst hl1; exact hT))]
    rw [hs4, mkDirs_outside (suffix_not_mem_pathPrefixes_append h0 (by
      intro l1 hl1; simp only [pathPrefixes, List.map_nil, List.map_cons, List.mem_singleton]
        at hl1; subst hl1; exact hH))]
    rw [hs3, mkDirs_outside (suffix_not_mem_pathPrefixes_append h0 (by
      intro l1 hl1; simp only [pathPrefixes, List.map_nil, List.map_cons, List.mem_singleton]
        at hl1; subst hl1; exact hM))]
    rw [hs2, mkDirs_outside (suffix_not_mem_pathPrefixes_append h0 (by
      intro l1 hl1; simp only [pathPrefixes, List.map_nil, List.map_cons, List.mem_singleton]
        at hl1; subst hl1; exact hE))]
    rw [hs1, mkDirs_outside (append_not_mem_pathPrefixes_self h0)]
  have hS5_rootpfx_dir : ∀ q ∈ pathPrefixes root, s5 q = .dir := by
    intro q hq
    rw [hs5]; apply mkDirs_keep_dir
    rw [hs4]; apply mkDirs_keep_dir
    rw [hs3]; apply mkDirs_keep_dir
    rw [hs2]; apply mkDirs_keep_dir
    rw [hs1]; exact mkDirs_dir_of hq
  have hS5_root_dir : s5 root = .dir := hS5_rootpfx_dir root (self_mem_pathPrefixes hroot)
  have hS5_easy_dir : s5 (root ++ ["Easy"]) = .dir := by
    rw [hs5]; apply mkDirs_keep_dir
    rw [hs4]; apply mkDirs_keep_dir
    rw [hs3]; apply mkDirs_keep_dir
    rw [hs2]; exact mkDirs_dir_of (self_mem_pathPrefixes (by simp))
  have hS5_medium_dir : s5 (root ++ ["Medium"]) = .dir := by
    rw [hs5]; apply mkDirs_keep_dir
    rw [hs4]; apply mkDirs_keep_dir
    rw [hs3]; exact mkDirs_dir_of (self_mem_pathPrefixes (by simp))
  have hS5_hard_dir : s5 (root ++ ["Hard"]) = .dir := by
    rw [hs5]; apply mkDirs_keep_dir
    rw [hs4]; exact mkDirs_dir_of (self_mem_pathPrefixes (by simp))
  have hS5_topics_dir : s5 (root ++ ["Topics"]) = .dir := by
    rw [hs5]; exact mkDirs_dir_of (self_mem_pathPrefixes (by simp))
  -- the five initial makedirs succeed
  have hstep1 : runOp s (.makedirs root) = some s1 := mk_step hP1
  have hstep2 : runOp s1 (.makedirs (root ++ ["Easy"])) = some s2 := by
    refine mk_step ?_
    intro q hq
    rw [pathPrefixes_append_one] at hq
    rcases List.mem_append.mp hq with h1 | h1
    · rw [hs1, mkDirs_dir_of h1]; rfl
    · rw [List.mem_singleton.mp h1, hs1,
        mkDirs_outside (append_not_mem_pathPrefixes_self (by simp))]
      exact hP2 "Easy" (by simp)
  have hstep3 : runOp s2 (.makedirs (root ++ ["Medium"])) = some s3 := by
    refine mk_step ?_
    intro q hq
    rw [pathPrefixes_append_one] at hq
    rcases List.mem_append.mp hq with h1 | h1
    · rw [hs2, mkDirs_keep_dir (by rw [hs1]; exact mkDirs_dir_of h1)]; rfl
    · rw [List.mem_singleton.mp h1]
      rw [hs2, mkDirs_outside (suffix_not_mem_pathPrefixes_append (by simp) (by
        intro l1 hl1; simp only [pathPrefixes, List.map_nil, List.map_cons, List.mem_singleton]
          at hl1; subst hl1; simp))]
      rw [hs1, mkDirs_outside (append_not_mem_pathPrefixes_self (by simp))]
      exact hP2 "Medium" (by simp)
  have hstep4 : runOp s3 (.makedirs (root ++ ["Hard"])) = some s4 := by
    refine mk_step ?_
    intro q hq
    rw [pathPrefixes_append_one] at hq
    rcases List.mem_append.mp hq with h1 | h1
    · rw [hs3, mkDirs_keep_dir (by rw [hs2]; exact mkDirs_keep_dir (by
        rw [hs1]; exact mkDirs_dir_of h1))]
      rfl
    · rw [List.mem_singleton.mp h1]
      rw [hs3, mkDirs_outside (suffix_not_mem_pathPrefixes_append (by simp) (by
        intro l1 hl1; simp only [pathPrefixes, List.map_nil, List.map_cons, List.mem_singleton]
          at hl1; subst hl1; simp))]
      rw [hs2, mkDirs_outside (suffix_not_mem_pathPrefixes_append (by simp) (by
        intro l1 hl1; simp only [pathPrefixes, List.map_nil, List.map_cons, List.mem_singleton]
          at hl1; subst hl1; simp))]
      rw [hs1, mkDirs_outside (append_not_mem_pathPrefixes_self (by simp))]
      exact hP2 "Hard" (by simp)
  have hstep5 : runOp s4 (.makedirs (root ++ ["Topics"])) = some s5 := by
    refine mk_step ?_
    intro q hq
    rw [pathPrefixes_append_one] at hq
    rcases List.mem_append.mp hq with h1 | h1
    · rw [hs4, mkDirs_keep_dir (by rw [hs3]; exact mkDirs_keep_dir (by
        rw [hs2]; exact mkDirs_keep_dir (by rw [hs1]; exact mkDirs_dir_of h1)))]
      rfl
    · rw [List.mem_singleton.mp h1]
      rw [hs4, mkDirs_outside (suffix_not_mem_pathPrefixes_append (by simp) (by
        intro l1 hl1; simp only [pathPrefixes, List.map_nil, List.map_cons, List.mem_singleton]
          at hl1; subst hl1; simp))]
      rw [hs3, mkDirs_outside (suffix_not_mem_pathPrefixes_append (by simp) (by
        intro l1 hl1; simp only [pathPrefixes, List.map_nil, List.map_cons, List.mem_singleton]
          at hl1; subst hl1; simp))]
      rw [hs2, mkDirs_outside (suffix_not_mem_pathPrefixes_append (by simp) (by
        intro l1 hl1; simp only [pathPrefixes, List.map_nil, List.map_cons, List.mem_singleton]
          at hl1; subst hl1; simp))]
      rw [hs1, mkDirs_outside (append_not_mem_pathPrefixes_self (by simp))]
      exact hP2 "Topics" (by simp)
  -- topic loop
  have hdirT : ∀ q ∈ pathPrefixes (root ++ ["Topics"]), s5 q = .dir := by
    intro q hq
    rw [pathPrefixes_append_one] at hq
    rcases List.mem_append.mp hq with h1 | h1
    · exact hS5_rootpfx_dir q h1
    · rw [List.mem_singleton.mp h1]; exact hS5_topics_dir
  have htsT : ∀ t ∈ ts, (s5 (root ++ ["Topics", t])).isFile = false ∧
      s5 ((root ++ ["Topics", t]) ++ [t ++ "_example.txt"]) ≠ .dir := by
    intro t ht
    constructor
    · rw [hS5_untouched ["Topics", t] (by simp) (by simp) (by simp) (by simp) (by simp)]
      exact (hP3 t ht).1
    · rw [List.append_assoc]
      rw [hS5_untouched (["Topics", t] ++ [t ++ "_example.txt"]) (by simp) (by simp) (by simp)
        (by simp) (by simp)]
      have h3 := (hP3 t ht).2
      rw [List.append_assoc] at h3
      exact h3
  obtain ⟨s6, hT⟩ := topicLoop_ok hdirT htsT
  -- facts after the topic loop
  have hnot_topic_pfx : ∀ (m : FPath), m ≠ [] → m ≠ ["Topics"] → (∀ t1 : String,
      m ≠ ["Topics", t1]) → ∀ t1 : String, root ++ m ∉ pathPrefixes (root ++ ["Topics", t1]) := by
    intro m h0 h1 h2 t1
    apply suffix_not_mem_pathPrefixes_append h0
    intro l1 hl1
    simp only [pathPrefixes, List.map_nil, List.map_cons, List.mem_cons, List.mem_singleton,
      List.not_mem_nil, or_false] at hl1
    rcases hl1 with rfl | rfl
    · exact h1
    · exact h2 t1
  have hT_frame : ∀ (m : FPath), m ≠ [] → m ≠ ["Topics"] → (∀ t1 : String, m ≠ ["Topics", t1]) →
      m.length ≠ 3 → s6 (root ++ m) = s5 (root ++ m) := by
    intro m h0 h1 h2 h3
    refine topicLoop_frame hT (hnot_topic_pfx m h0 h1 h2) ?_
    intro t1
    rw [List.append_assoc]
    exact hsuf_ne m (["Topics", t1] ++ [t1 ++ "_example.txt"]) (by simpa using h3)
  have h6_rootpfx_dir : ∀ q ∈ pathPrefixes root, s6 q = .dir :=
    fun q hq => runOps_dir_mono hT (hS5_rootpfx_dir q hq)
  have h6_root_dir : s6 root = .dir := runOps_dir_mono hT hS5_root_dir
  have h6_easy_dir : s6 (root ++ ["Easy"]) = .dir := runOps_dir_mono hT hS5_easy_dir
  have h6_medium_dir : s6 (root ++ ["Medium"]) = .dir := runOps_dir_mono hT hS5_medium_dir
  have h6_hard_dir : s6 (root ++ ["Hard"]) = .dir := runOps_dir_mono hT hS5_hard_dir
  -- difficulty loop
  have hdirD : ∀ d ∈ difficulty_folders, s6 (root ++ [d]) = .dir := by
    intro d hd
    simp only [difficulty_folders, List.mem_cons, List.not_mem_nil, or_false] at hd
    rcases hd with rfl | rfl | rfl
    · exact h6_easy_dir
    · exact h6_medium_dir
    · exact h6_hard_dir
  have hdD : ∀ d ∈ difficulty_folders, s6 ((root ++ [d]) ++ [d ++ "_example.txt"]) ≠ .dir := by
    intro d hd
    have hd2 : d ≠ "Topics" := by
      simp only [difficulty_folders, List.mem_cons, List.not_mem_nil, or_false] at hd
      rcases hd with rfl | rfl | rfl <;> simp
    rw [List.append_assoc]
    rw [hT_frame ([d] ++ [d ++ "_example.txt"]) (by simp) (by simp)
      (by intro t1; simp [hd2]) (by simp)]
    rw [hS5_untouched ([d] ++ [d ++ "_example.txt"]) (by simp) (by simp) (by simp) (by simp)
      (by simp)]
    have h4 := hP4 d hd
    rw [List.append_assoc] at h4
    exact h4
  obtain ⟨s7, hD⟩ := diffLoop_ok hdirD hdD
  have hD_frame : ∀ (m : FPath), m.length ≠ 2 → s7 (root ++ m) = s6 (root ++ m) := by
    intro m hm
    refine diffLoop_frame hD ?_
    intro d _
    rw [List.append_assoc]
    exact hsuf_ne m ([d] ++ [d ++ "_example.txt"]) (by simpa using hm)
  have h7_rootpfx_dir : ∀ q ∈ pathPrefixes root, s7 q = .dir :=
    fun q hq => runOps_dir_mono hD (h6_rootpfx_dir q hq)
  have h7_root_dir : s7 root = .dir := runOps_dir_mono hD h6_root_dir
  -- Utilities makedirs
  have h7_util_not_file : (s7 (root ++ ["Utilities"])).isFile = false := by
    rw [hD_frame ["Utilities"] (by simp)]
    rw [hT_frame ["Utilities"] (by simp) (by simp) (by intro t1; simp) (by simp)]
    rw [hS5_untouched ["Utilities"] (by simp) (by simp) (by simp) (by simp) (by simp)]
    exact hP2 "Utilities" (by simp)
  have hstep6 : runOp s7 (.makedirs (root ++ ["Utilities"])) =
      some (mkDirs s7 (root ++ ["Utilities"])) := by
    refine mk_step ?_
    intro q hq
    rw [pathPrefixes_append_one] at hq
    rcases List.mem_append.mp hq with h1 | h1
    · rw [h7_rootpfx_dir q h1]; rfl
    · rw [List.mem_singleton.mp h1]
      exact h7_util_not_file
  set s8 := mkDirs s7 (root ++ ["Utilities"]) with hs8
  -- utility loop
  have h8_util_dir : s8 (root ++ ["Utilities"]) = .dir := by
    rw [hs8]; exact mkDirs_dir_of (self_mem_pathPrefixes (by simp))
  have h8_us : ∀ u ∈ us, s8 ((root ++ ["Utilities"]) ++ [u]) ≠ .dir := by
    intro u hu
    rw [hs8, List.append_assoc, mkDirs_outside (suffix_not_mem_pathPrefixes_append (by simp) (by
      intro l1 hl1; simp only [pathPrefixes, List.map_nil, List.map_cons, List.mem_singleton]
        at hl1; subst hl1; simp))]
    rw [diffLoop_frame hD (by
      intro d hd
      rw [List.append_assoc]
      apply append_suffix_ne
      intro he
      simp only [List.cons_append, List.nil_append, List.cons.injEq] at he
      rw [← he.1] at hd
      simp [difficulty_folders] at hd)]
    rw [hT_frame (["Utilities"] ++ [u]) (by simp) (by simp) (by intro t1; simp) (by simp)]
    rw [hS5_untouched (["Utilities"] ++ [u]) (by simp) (by simp) (by simp) (by simp) (by simp)]
    have h5 := hP5 u hu
    rw [List.append_assoc] at h5
    exact h5
  obtain ⟨s9, hU⟩ := utilLoop_ok h8_util_dir h8_us
  -- README.md write
  have h8_root_dir : s8 root = .dir := by
    rw [hs8]; exact mkDirs_keep_dir h7_root_dir
  have h9_root_dir : s9 root = .dir := runOps_dir_mono hU h8_root_dir
  have h9_readme_not_dir : s9 (root ++ ["README.md"]) ≠ .dir := by
    rw [utilLoop_frame hU (by
      intro u _
      rw [List.append_assoc]
      exact hsuf_ne ["README.md"] (["Utilities"] ++ [u]) (by simp))]
    rw [hs8, mkDirs_outside (suffix_not_mem_pathPrefixes_append (by simp) (by
      intro l1 hl1; simp only [pathPrefixes, List.map_nil, List.map_cons, List.mem_singleton]
        at hl1; subst hl1; simp))]
    rw [hD_frame ["README.md"] (by simp)]
    rw [hT_frame ["README.md"] (by simp) (by simp) (by intro t1; simp) (by simp)]
    rw [hS5_untouched ["README.md"] (by simp) (by simp) (by simp) (by simp) (by simp)]
    exact hP6
  have hstep10 : runOp s9 (.write root "README.md" readmeContent) =
      some (upd s9 (root ++ ["README.md"]) (.file readmeContent)) :=
    write_step h9_root_dir h9_readme_not_dir
  -- assemble the whole run
  have hA : runOps s [Op.makedirs root, .makedirs (root ++ ["Easy"]),
      .makedirs (root ++ ["Medium"]), .makedirs (root ++ ["Hard"]),
      .makedirs (root ++ ["Topics"])] = .ok s5 := by
    simp only [runOps, hstep1, hstep2, hstep3, hstep4, hstep5]
  have hB : runOps s ([Op.makedirs root, .makedirs (root ++ ["Easy"]),
      .makedirs (root ++ ["Medium"]), .makedirs (root ++ ["Hard"]),
      .makedirs (root ++ ["Topics"])] ++ ts.flatMap (topicOps root)) = .ok s6 := by
    rw [runOps_append_ok _ hA]
    exact hT
  have hC : runOps s ([Op.makedirs root, .makedirs (root ++ ["Easy"]),
      .makedirs (root ++ ["Medium"]), .makedirs (root ++ ["Hard"]),
      .makedirs (root ++ ["Topics"])] ++ ts.flatMap (topicOps root) ++
      difficulty_folders.flatMap (difficultyOps root)) = .ok s7 := by
    rw [runOps_append_ok _ hB]
    exact hD
  have hE : runOps s ([Op.makedirs root, .makedirs (root ++ ["Easy"]),
      .makedirs (root ++ ["Medium"]), .makedirs (root ++ ["Hard"]),
      .makedirs (root ++ ["Topics"])] ++ ts.flatMap (topicOps root) ++
      difficulty_folders.flatMap (difficultyOps root) ++
      [Op.makedirs (root ++ ["Utilities"])]) = .ok s8 := by
    rw [runOps_append_ok _ hC]
    simp only [runOps, hstep6]
  have hF : runOps s ([Op.makedirs root, .makedirs (root ++ ["Easy"]),
      .makedirs (root ++ ["Medium"]), .makedirs (root ++ ["Hard"]),
      .makedirs (root ++ ["Topics"])] ++ ts.flatMap (topicOps root) ++
      difficulty_folders.flatMap (difficultyOps root) ++
      [Op.makedirs (root ++ ["Utilities"])] ++ us.flatMap (utilityOps root)) = .ok s9 := by
    rw [runOps_append_ok _ hE]
    exact hU
  refine ⟨upd s9 (root ++ ["README.md"]) (.file readmeContent), ?_⟩
  show runOps s ([Op.makedirs root, .makedirs (root ++ ["Easy"]),
      .makedirs (root ++ ["Medium"]), .makedirs (root ++ ["Hard"]),
      .makedirs (root ++ ["Topics"])] ++ ts.flatMap (topicOps root) ++
      difficulty_folders.flatMap (difficultyOps root) ++
      [Op.makedirs (root ++ ["Utilities"])] ++ us.flatMap (utilityOps root) ++
      [Op.write root "README.md" readmeContent]) = _
  rw [runOps_append_ok _ hF]
  simp only [runOps, hstep10]

/-! ## Characterization of all paths the script touches -/

theorem targetsOf_append (l1 l2 : List Op) :
    targetsOf (l1 ++ l2) = targetsOf l1 ++ targetsOf l2 := by
  simp [targetsOf]

theorem targetsOf_singleton (op : Op) : targetsOf [op] = opTargets op := by
  simp [targetsOf]

theorem targetsOf_mk_singleton (p : FPath) :
    targetsOf [Op.makedirs p] = pathPrefixes p := by
  simp [targetsOf, opTargets]

theorem isFile_true_ne_dir {e : FsEntry} (h : e.isFile = true) : e ≠ .dir := by
  cases e <;> simp [FsEntry.isFile] at h ⊢

theorem mem_targetsOf_of_mem_writeTargets {ops : List Op} {p : FPath}
    (h : p ∈ writeTargets ops) : p ∈ targetsOf ops := by
  obtain ⟨op, hop, hpe⟩ := List.mem_filterMap.mp h
  cases op with
  | makedirs q => simp at hpe
  | write d f c =>
    simp only [Option.some.injEq] at hpe
    subst hpe
    exact List.mem_flatMap.mpr ⟨_, hop, by simp [opTargets]⟩

theorem mem_writeTargets_scriptOps {root : FPath} {ts us : List String} {p : FPath} :
    p ∈ writeTargets (scriptOps root ts us) ↔
      (∃ t ∈ ts, p = (root ++ ["Topics", t]) ++ [t ++ "_example.txt"]) ∨
      (∃ d ∈ difficulty_folders, p = (root ++ [d]) ++ [d ++ "_example.txt"]) ∨
      (∃ u ∈ us, p = (root ++ ["Utilities"]) ++ [u]) ∨
      p = root ++ ["README.md"] := by
  constructor
  · intro h
    obtain ⟨op, hop, hpe⟩ := List.mem_filterMap.mp h
    cases op with
    | makedirs q => simp at hpe
    | write d f c =>
      simp only [Option.some.injEq] at hpe
      subst hpe
      rcases write_mem_scriptOps hop with ⟨t, ht, rfl, rfl, rfl⟩ | ⟨dd, hdd, rfl, rfl, rfl⟩ |
        ⟨u, hu, rfl, rfl, rfl⟩ | ⟨rfl, rfl, rfl⟩
      · exact Or.inl ⟨t, ht, rfl⟩
      · exact Or.inr (Or.inl ⟨dd, hdd, rfl⟩)
      · exact Or.inr (Or.inr (Or.inl ⟨f, hu, rfl⟩))
      · exact Or.inr (Or.inr (Or.inr rfl))
  · intro h
    rcases h with ⟨t, ht, rfl⟩ | ⟨dd, hdd, rfl⟩ | ⟨u, hu, rfl⟩ | rfl
    · exact List.mem_filterMap.mpr ⟨.write (root ++ ["Topics", t]) (t ++ "_example.txt")
        (topicContent t), mem_scriptOps_of_mem_topicLoop ht (by simp [topicOps]), rfl⟩
    · exact List.mem_filterMap.mpr ⟨.write (root ++ [dd]) (dd ++ "_example.txt")
        (difficultyContent dd), mem_scriptOps_of_mem_difficultyLoop hdd
          (by simp [difficultyOps]), rfl⟩
    · exact List.mem_filterMap.mpr ⟨.write (root ++ ["Utilities"]) u (utilityContent u),
        mem_scriptOps_of_mem_utilityLoop hu (by simp [utilityOps]), rfl⟩
    · exact List.mem_filterMap.mpr ⟨.write root "README.md" readmeContent,
        readme_write_mem_scriptOps, rfl⟩

theorem mem_targets_scriptOps_elim {root : FPath} {ts us : List String} {p : FPath}
    (h : p ∈ targetsOf (scriptOps root ts us)) :
    p ∈ pathPrefixes root ∨
    (∃ n ∈ (["Easy", "Medium", "Hard", "Topics", "Utilities"] : List String),
      p = root ++ [n]) ∨
    (∃ t ∈ ts, p ∈ pathPrefixes (root ++ ["Topics", t]) ∨
      p = (root ++ ["Topics", t]) ++ [t ++ "_example.txt"]) ∨
    (∃ d ∈ difficulty_folders, p = (root ++ [d]) ++ [d ++ "_example.txt"]) ∨
    (∃ u ∈ us, p = (root ++ ["Utilities"]) ++ [u]) ∨
    p = root ++ ["README.md"] := by
  unfold scriptOps at h
  simp only [targetsOf_append, List.mem_append] at h
  rcases h with ((((((((h | h) | h) | h) | h) | h) | h) | h) | h) | h
  · exact Or.inl (by simpa [targetsOf, opTargets] using h)
  · rw [targetsOf_mk_singleton, pathPrefixes_append_one] at h
    rcases List.mem_append.mp h with h1 | h1
    · exact Or.inl h1
    · exact Or.inr (Or.inl ⟨"Easy", by simp, List.mem_singleton.mp h1⟩)
  · rw [targetsOf_mk_singleton, pathPrefixes_append_one] at h
    rcases List.mem_append.mp h with h1 | h1
    · exact Or.inl h1
    · exact Or.inr (Or.inl ⟨"Medium", by simp, List.mem_singleton.mp h1⟩)
  · rw [targetsOf_mk_singleton, pathPrefixes_append_one] at h
    rcases List.mem_append.mp h with h1 | h1
    · exact Or.inl h1
    · exact Or.inr (Or.inl ⟨"Hard", by simp, List.mem_singleton.mp h1⟩)
  · rw [targetsOf_mk_singleton, pathPrefixes_append_one] at h
    rcases List.mem_append.mp h with h1 | h1
    · exact Or.inl h1
    · exact Or.inr (Or.inl ⟨"Topics", by simp, List.mem_singleton.mp h1⟩)
  · exact Or.inr (Or.inr (Or.inl (mem_targets_topicLoop.mp h)))
  · exact Or.inr (Or.inr (Or.inr (Or.inl (mem_targets_diffLoop.mp h))))
  · rw [targetsOf_mk_singleton, pathPrefixes_append_one] at h
    rcases List.mem_append.mp h with h1 | h1
    · exact Or.inl h1
    · exact Or.inr (Or.inl ⟨"Utilities", by simp, List.mem_singleton.mp h1⟩)
  · exact Or.inr (Or.inr (Or.inr (Or.inr (Or.inl (mem_targets_utilLoop.mp h)))))
  · simp only [targetsOf_singleton, opTargets, List.mem_singleton] at h
    exact Or.inr (Or.inr (Or.inr (Or.inr (Or.inr h))))

/-- C5: running the build twice never fails, and re-running restores the
generated tree exactly: if a first run succeeds and the filesystem is then
modified only at generated-file paths (each still holding some regular
file, e.g. with edited text), a second run succeeds and its final state
agrees everywhere with the first run's final state — directories are
created idempotently while every placeholder file is overwritten back to
its fixed template content. -/
theorem claim_C5 {s s2 : FS} {root : FPath} (hroot : root ≠ [])
    (h1 : runOk s root topics utilities = true)
    (h2 : ∀ p, p ∉ writeTargets (scriptOps root topics utilities) →
      s2 p = runFS s root topics utilities p)
    (h3 : ∀ p ∈ writeTargets (scriptOps root topics utilities), (s2 p).isFile = true) :
    runOk s2 root topics utilities = true ∧
    ∀ p, runFS s2 root topics utilities p = runFS s root topics utilities p := by
  have hops1 := runOps_of_runOk h1
  set fs1 := runFS s root topics utilities with hfs1
  have f1_rootpfx : ∀ q ∈ pathPrefixes root, fs1 q = .dir :=
    fun q hq => runOps_mkdir_final root_mkdir_mem_scriptOps hops1 hq
  have hsuf_ne : ∀ m1 m2 : FPath, m1.length ≠ m2.length → root ++ m1 ≠ root ++ m2 := by
    intro m1 m2 hl he
    exact hl (by rw [append_suffix_inj he])
  -- a path on the directory chain is never a write target
  have hdir_not_wt : ∀ (m : FPath), m.length = 1 → m ≠ ["README.md"] →
      root ++ m ∉ writeTargets (scriptOps root topics utilities) := by
    intro m hm hr hmem
    rcases mem_writeTargets_scriptOps.mp hmem with ⟨t, _, he⟩ | ⟨dd, _, he⟩ | ⟨u, _, he⟩ | he
    · rw [List.append_assoc] at he
      exact hsuf_ne m _ (by simp [hm]) he
    · rw [List.append_assoc] at he
      exact hsuf_ne m _ (by simp [hm]) he
    · rw [List.append_assoc] at he
      exact hsuf_ne m _ (by simp [hm]) he
    · exact hr (append_suffix_inj he)
  have hpfx_not_wt : ∀ q ∈ pathPrefixes root,
      q ∉ writeTargets (scriptOps root topics utilities) := by
    intro q hq hmem
    have hlen := length_le_of_mem_pathPrefixes hq
    rcases mem_writeTargets_scriptOps.mp hmem with ⟨t, _, he⟩ | ⟨dd, _, he⟩ | ⟨u, _, he⟩ | he
    · rw [he, List.append_assoc] at hlen
      simp at hlen
    · rw [he, List.append_assoc] at hlen
      simp at hlen
    · rw [he, List.append_assoc] at hlen
      simp at hlen
    · rw [he] at hlen
      simp at hlen
  have htdir_not_wt : ∀ t1 : String,
      root ++ ["Topics", t1] ∉ writeTargets (scriptOps root topics utilities) := by
    intro t1 hmem
    rcases mem_writeTargets_scriptOps.mp hmem with ⟨t, _, he⟩ | ⟨dd, hdd, he⟩ |
      ⟨u, _, he⟩ | he
    · rw [List.append_assoc] at he
      exact hsuf_ne _ _ (by simp) he
    · rw [List.append_assoc] at he
      have h5 := append_suffix_inj he
      simp only [List.cons_append, List.nil_append, List.cons.injEq] at h5
      rw [← h5.1] at hdd
      simp [difficulty_folders] at hdd
    · rw [List.append_assoc] at he
      have h5 := append_suffix_inj he
      simp at h5
    · exact hsuf_ne _ _ (by simp) he
  -- preconditions of the second run
  have hP1 : ∀ q ∈ pathPrefixes root, (s2 q).isFile = false := by
    intro q hq
    rw [h2 q (hpfx_not_wt q hq), f1_rootpfx q hq]
    rfl
  have hP2 : ∀ n ∈ (["Easy", "Medium", "Hard", "Topics", "Utilities"] : List String),
      (s2 (root ++ [n])).isFile = false := by
    intro n hn
    have hnr : ([n] : FPath) ≠ ["README.md"] := by
      simp only [List.mem_cons, List.not_mem_nil, or_false] at hn
      rcases hn with rfl | rfl | rfl | rfl | rfl <;> simp
    rw [h2 _ (hdir_not_wt [n] (by simp) hnr), final_fixed_dir hn hops1]
    rfl
  have hP3 : ∀ t ∈ topics, (s2 (root ++ ["Topics", t])).isFile = false ∧
      s2 ((root ++ ["Topics", t]) ++ [t ++ "_example.txt"]) ≠ .dir := by
    intro t ht
    constructor
    · rw [h2 _ (htdir_not_wt t), final_topic_dir ht hops1]
      rfl
    · exact isFile_true_ne_dir (h3 _ (mem_writeTargets_scriptOps.mpr (Or.inl ⟨t, ht, rfl⟩)))
  have hP4 : ∀ d ∈ difficulty_folders,
      s2 ((root ++ [d]) ++ [d ++ "_example.txt"]) ≠ .dir := by
    intro d hd
    exact isFile_true_ne_dir (h3 _ (mem_writeTargets_scriptOps.mpr
      (Or.inr (Or.inl ⟨d, hd, rfl⟩))))
  have hP5 : ∀ u ∈ utilities, s2 ((root ++ ["Utilities"]) ++ [u]) ≠ .dir := by
    intro u hu
    exact isFile_true_ne_dir (h3 _ (mem_writeTargets_scriptOps.mpr
      (Or.inr (Or.inr (Or.inl ⟨u, hu, rfl⟩)))))
  have hP6 : s2 (root ++ ["README.md"]) ≠ .dir :=
    isFile_true_ne_dir (h3 _ (mem_writeTargets_scriptOps.mpr (Or.inr (Or.inr (Or.inr rfl)))))
  obtain ⟨sfin2, hops2⟩ := scriptOps_run_ok hroot hP1 hP2 hP3 hP4 hP5 hP6
  obtain ⟨hok2, hfs2⟩ := runOk_of_runOps hops2
  refine ⟨hok2, ?_⟩
  intro p
  rw [hfs2]
  by_cases hmem : p ∈ targetsOf (scriptOps root topics utilities)
  · rcases mem_targets_scriptOps_elim hmem with hc | ⟨n, hn, rfl⟩ | ⟨t, ht, hc | rfl⟩ |
      ⟨d, hd, rfl⟩ | ⟨u, hu, rfl⟩ | rfl
    · rw [runOps_mkdir_final root_mkdir_mem_scriptOps hops2 hc, f1_rootpfx p hc]
    · rw [final_fixed_dir hn hops2, final_fixed_dir hn hops1]
    · rw [runOps_mkdir_final (mem_scriptOps_of_mem_topicLoop ht (by simp [topicOps]))
        hops2 hc,
        runOps_mkdir_final (mem_scriptOps_of_mem_topicLoop ht (by simp [topicOps])) hops1 hc]
    · rw [final_topic_file ht hops2, final_topic_file ht hops1]
    · rw [final_difficulty_file hd hops2, final_difficulty_file hd hops1]
    · rw [final_utility_file hu hops2, final_utility_file hu hops1]
    · rw [final_readme_file hops2, final_readme_file hops1]
  · rw [runOps_frame hops2 hmem]
    exact h2 p (fun hw => hmem (mem_targetsOf_of_mem_writeTargets hw))

/-- Witness for C5: edit the generated README, re-run, the content is
restored to the fixed template. -/
theorem claim_C5_witness :
    runOk (upd (runFS emptyFS ["r"] topics utilities) (["r"] ++ ["README.md"])
      (.file "edited")) ["r"] topics utilities = true ∧
    runFS (upd (runFS emptyFS ["r"] topics utilities) (["r"] ++ ["README.md"])
      (.file "edited")) ["r"] topics utilities (["r"] ++ ["README.md"]) =
      runFS emptyFS ["r"] topics utilities (["r"] ++ ["README.md"]) := by
  have h2 : ∀ p, p ∉ writeTargets (scriptOps ["r"] topics utilities) →
      upd (runFS emptyFS ["r"] topics utilities) (["r"] ++ ["README.md"]) (.file "edited") p =
      runFS emptyFS ["r"] topics utilities p := by
    intro p hp
    by_cases hpe : p = ["r"] ++ ["README.md"]
    · subst hpe
      exact absurd (by decide) hp
    · exact upd_ne _ _ _ hpe
  have hall : ∀ p ∈ writeTargets (scriptOps ["r"] topics utilities),
      ((runFS emptyFS ["r"] topics utilities) p).isFile = true := by decide
  have h3 : ∀ p ∈ writeTargets (scriptOps ["r"] topics utilities),
      (upd (runFS emptyFS ["r"] topics utilities) (["r"] ++ ["README.md"])
        (.file "edited") p).isFile = true := by
    intro p hp
    by_cases hpe : p = ["r"] ++ ["README.md"]
    · subst hpe
      rw [upd_self]
      rfl
    · rw [upd_ne _ _ _ hpe]
      exact hall p hp
  have hmain := claim_C5 (by decide) (by decide) h2 h3
  exact ⟨hmain.1, hmain.2 (["r"] ++ ["README.md"])⟩

/-! ## Duplicate list entries are no-ops -/

theorem upd_eq_self {s : FS} {p : FPath} {e : FsEntry} (h : s p = e) : upd s p e = s := by
  funext q
  unfold upd
  split
  · next hq => rw [hq, h]
  · rfl

theorem mkDirs_eq_self {s : FS} {p : FPath} (h : ∀ q ∈ pathPrefixes p, s q = .dir) :
    mkDirs s p = s := by
  funext q
  rw [mkDirs_eval]
  split
  · next hq => rw [h q hq]
  · rfl

theorem write_ok_parent_dir {s s2 : FS} {d : FPath} {f c : String}
    (h : runOp s (.write d f c) = some s2) :
    s d = .dir ∧ s2 = upd s (d ++ [f]) (.file c) := by
  simp only [runOp] at h
  split at h
  · next hc =>
    cases h
    rw [Bool.and_eq_true] at hc
    exact ⟨isDir_iff.mp hc.1, rfl⟩
  · cases h

/-- A second occurrence of a topic whose directory and example file are
already in place is a no-op, so filtering it out does not change the run. -/
theorem topicLoop_filter {root : FPath} {x : String} {l : List String} {s : FS}
    (hdirs : ∀ q ∈ pathPrefixes (root ++ ["Topics", x]), s q = .dir)
    (hfile : s ((root ++ ["Topics", x]) ++ [x ++ "_example.txt"]) = .file (topicContent x)) :
    runOps s ((l.filter (fun y => y ≠ x)).flatMap (topicOps root)) =
      runOps s (l.flatMap (topicOps root)) := by
  induction l generalizing s with
  | nil => rfl
  | cons y l ih =>
    by_cases hyx : y = x
    · subst hyx
      rw [show (y :: l).filter (fun z => z ≠ y) = l.filter (fun z => z ≠ y) from by simp]
      rw [show (y :: l).flatMap (topicOps root) =
        topicOps root y ++ l.flatMap (topicOps root) from rfl]
      rw [runOps_append]
      have hmk : runOp s (.makedirs (root ++ ["Topics", y])) = some s := by
        rw [mk_step (fun q hq => by rw [hdirs q hq]; rfl)]
        rw [mkDirs_eq_self hdirs]
      have hwr : runOp s (.write (root ++ ["Topics", y]) (y ++ "_example.txt")
          (topicContent y)) = some s := by
        rw [write_step (hdirs _ (self_mem_pathPrefixes (by simp))) (by rw [hfile]; simp)]
        rw [upd_eq_self hfile]
      have hrun : runOps s (topicOps root y) = .ok s := by
        simp only [topicOps, runOps, hmk, hwr]
      rw [hrun]
      exact ih hdirs hfile
    · rw [show (y :: l).filter (fun z => z ≠ x) = y :: l.filter (fun z => z ≠ x) from
        by simp [hyx]]
      rw [show (y :: l.filter (fun z => z ≠ x)).flatMap (topicOps root) =
        topicOps root y ++ (l.filter (fun z => z ≠ x)).flatMap (topicOps root) from rfl]
      rw [show (y :: l).flatMap (topicOps root) =
        topicOps root y ++ l.flatMap (topicOps root) from rfl]
      rw [runOps_append, runOps_append]
      cases hr : runOps s (topicOps root y) with
      | error e => rfl
      | ok s2 =>
        have hdirs2 : ∀ q ∈ pathPrefixes (root ++ ["Topics", x]), s2 q = .dir :=
          fun q hq => runOps_dir_mono hr (hdirs q hq)
        have hfile2 : s2 ((root ++ ["Topics", x]) ++ [x ++ "_example.txt"]) =
            .file (topicContent x) := by
          refine runOps_file_preserve ?_ hr hfile
          intro op hop
          simp only [topicOps, List.mem_cons, List.not_mem_nil, or_false] at hop
          rcases hop with rfl | rfl
          · trivial
          · intro he
            obtain ⟨hd, hf⟩ := concat_path_inj he
            have h2 := append_suffix_inj hd
            simp only [List.cons.injEq, true_and, and_true] at h2
            exact absurd h2 hyx
        exact ih hdirs2 hfile2

/-- Removing later duplicates from the topic list does not change the run. -/
theorem topicLoop_dedup {root : FPath} (l : List String) (s : FS) :
    runOps s ((dedupFirst l).flatMap (topicOps root)) = runOps s (l.flatMap (topicOps root)) := by
  induction l generalizing s with
  | nil => rfl
  | cons y l ih =>
    rw [show dedupFirst (y :: l) = y :: (dedupFirst l).filter (fun z => z ≠ y) from rfl]
    rw [show (y :: (dedupFirst l).filter (fun z => z ≠ y)).flatMap (topicOps root) =
      topicOps root y ++ ((dedupFirst l).filter (fun z => z ≠ y)).flatMap (topicOps root)
      from rfl]
    rw [show (y :: l).flatMap (topicOps root) =
      topicOps root y ++ l.flatMap (topicOps root) from rfl]
    rw [runOps_append, runOps_append]
    cases hr : runOps s (topicOps root y) with
    | error e => rfl
    | ok s2 =>
      have hdirs2 : ∀ q ∈ pathPrefixes (root ++ ["Topics", y]), s2 q = .dir :=
        fun q hq => runOps_mkdir_final (by simp [topicOps]) hr hq
      have hfile2 : s2 ((root ++ ["Topics", y]) ++ [y ++ "_example.txt"]) =
          .file (topicContent y) := by
        refine runOps_write_final (by simp [topicOps]) ?_ hr
        intro op hop
        simp only [topicOps, List.mem_cons, List.not_mem_nil, or_false] at hop
        rcases hop with rfl | rfl
        · trivial
        · intro _
          rfl
      exact (topicLoop_filter hdirs2 hfile2).trans (ih s2)

/-- A second occurrence of a utility filename whose file is already written
is a no-op, so filtering it out does not change the run. -/
theorem utilLoop_filter {root : FPath} {x : String} {l : List String} {s : FS}
    (hdir : s (root ++ ["Utilities"]) = .dir)
    (hfile : s ((root ++ ["Utilities"]) ++ [x]) = .file (utilityContent x)) :
    runOps s ((l.filter (fun y => y ≠ x)).flatMap (utilityOps root)) =
      runOps s (l.flatMap (utilityOps root)) := by
  induction l generalizing s with
  | nil => rfl
  | cons y l ih =>
    by_cases hyx : y = x
    · subst hyx
      rw [show (y :: l).filter (fun z => z ≠ y) = l.filter (fun z => z ≠ y) from by simp]
      rw [show (y :: l).flatMap (utilityOps root) =
        utilityOps root y ++ l.flatMap (utilityOps root) from rfl]
      rw [runOps_append]
      have hwr : runOp s (.write (root ++ ["Utilities"]) y (utilityContent y)) = some s := by
        rw [write_step hdir (by rw [hfile]; simp)]
        rw [upd_eq_self hfile]
      have hrun : runOps s (utilityOps root y) = .ok s := by
        simp only [utilityOps, runOps, hwr]
      rw [hrun]
      exact ih hdir hfile
    · rw [show (y :: l).filter (fun z => z ≠ x) = y :: l.filter (fun z => z ≠ x) from
        by simp [hyx]]
      rw [show (y :: l.filter (fun z => z ≠ x)).flatMap (utilityOps root) =
        utilityOps root y ++ (l.filter (fun z => z ≠ x)).flatMap (utilityOps root) from rfl]
      rw [show (y :: l).flatMap (utilityOps root) =
        utilityOps root y ++ l.flatMap (utilityOps root) from rfl]
      rw [runOps_append, runOps_append]
      cases hr : runOps s (utilityOps root y) with
      | error e => rfl
      | ok s2 =>
        have hdir2 : s2 (root ++ ["Utilities"]) = .dir := runOps_dir_mono hr hdir
        have hfile2 : s2 ((root ++ ["Utilities"]) ++ [x]) = .file (utilityContent x) := by
          refine runOps_file_preserve ?_ hr hfile
          intro op hop
          simp only [utilityOps, List.mem_singleton] at hop
          subst hop
          intro he
          obtain ⟨hd, hf⟩ := concat_path_inj he
          exact absurd hf hyx
        exact ih hdir2 hfile2

/-- Removing later duplicates from the utility list does not change the run. -/
theorem utilLoop_dedup {root : FPath} (l : List String) (s : FS) :
    runOps s ((dedupFirst l).flatMap (utilityOps root)) =
      runOps s (l.flatMap (utilityOps root)) := by
  induction l generalizing s with
  | nil => rfl
  | cons y l ih =>
    rw [show dedupFirst (y :: l) = y :: (dedupFirst l).filter (fun z => z ≠ y) from rfl]
    rw [show (y :: (dedupFirst l).filter (fun z => z ≠ y)).flatMap (utilityOps root) =
      utilityOps root y ++ ((dedupFirst l).filter (fun z => z ≠ y)).flatMap (utilityOps root)
      from rfl]
    rw [show (y :: l).flatMap (utilityOps root) =
      utilityOps root y ++ l.flatMap (utilityOps root) from rfl]
    rw [runOps_append, runOps_append]
    cases hr : runOps s (utilityOps root y) with
    | error e => rfl
    | ok s2 =>
      obtain ⟨s3, hop, hrest⟩ := runOps_ok_of_cons hr
      have hs3 : runOps s3 ([] : List Op) = .ok s2 := hrest
      have hs32 : s3 = s2 := by cases hs3; rfl
      obtain ⟨hpdir, hupd⟩ := write_ok_parent_dir hop
      have hdir2 : s2 (root ++ ["Utilities"]) = .dir := by
        rw [← hs32, hupd, upd_ne _ _ _ (by
          intro he
          have := congrArg List.length he
          simp at this)]
        exact hpdir
      have hfile2 : s2 ((root ++ ["Utilities"]) ++ [y]) = .file (utilityContent y) := by
        refine runOps_write_final (by simp [utilityOps]) ?_ hr
        intro op hop2
        simp only [utilityOps, List.mem_singleton] at hop2
        subst hop2
        intro _
        rfl
      exact (utilLoop_filter hdir2 hfile2).trans (ih s2)

theorem runOps_append_congr2 {s : FS} {l1 l1' : List Op}
    (h : runOps s l1 = runOps s l1') (l2 l2' : List Op)
    (h2 : ∀ s1 : FS, runOps s1 l2 = runOps s1 l2') :
    runOps s (l1 ++ l2) = runOps s (l1' ++ l2') := by
  rw [runOps_append s l1 l2, runOps_append s l1' l2', h]
  cases runOps s l1' with
  | ok a => exact h2 a
  | error a => rfl

/-- C10: duplicates in the topic or utility lists never change the outcome:
the build on any lists succeeds or fails exactly like the build on the
de-duplicated lists (keeping first occurrences), and produces the identical
filesystem — repeated directory creations are no-ops and repeated file
writes rewrite identical template content. -/
theorem claim_C10 (s : FS) (root : FPath) (ts us : List String) :
    runOk s root (dedupFirst ts) (dedupFirst us) = runOk s root ts us ∧
    ∀ p, runFS s root (dedupFirst ts) (dedupFirst us) p = runFS s root ts us p := by
  have e0 : runOps s [Op.makedirs root, .makedirs (root ++ ["Easy"]),
      .makedirs (root ++ ["Medium"]), .makedirs (root ++ ["Hard"]),
      .makedirs (root ++ ["Topics"])] =
      runOps s [Op.makedirs root, .makedirs (root ++ ["Easy"]),
      .makedirs (root ++ ["Medium"]), .makedirs (root ++ ["Hard"]),
      .makedirs (root ++ ["Topics"])] := rfl
  have e1 := runOps_append_congr2 e0 ((dedupFirst ts).flatMap (topicOps root))
    (ts.flatMap (topicOps root)) (fun s1 => topicLoop_dedup ts s1)
  have e2 := runOps_append_congr2 e1 (difficulty_folders.flatMap (difficultyOps root))
    (difficulty_folders.flatMap (difficultyOps root)) (fun _ => rfl)
  have e3 := runOps_append_congr2 e2 [Op.makedirs (root ++ ["Utilities"])]
    [Op.makedirs (root ++ ["Utilities"])] (fun _ => rfl)
  have e4 := runOps_append_congr2 e3 ((dedupFirst us).flatMap (utilityOps root))
    (us.flatMap (utilityOps root)) (fun s1 => utilLoop_dedup us s1)
  have e5 := runOps_append_congr2 e4 [Op.write root "README.md" readmeContent]
    [Op.write root "README.md" readmeContent] (fun _ => rfl)
  have hmain : runOps s (scriptOps root (dedupFirst ts) (dedupFirst us)) =
      runOps s (scriptOps root ts us) := e5
  constructor
  · unfold runOk runScript
    rw [hmain]
  · intro p
    unfold runFS runScript
    rw [hmain]
